import Mathlib

/-!
# qshare: a shallow embedding of the discovery and transfer engine

The Go program `qshare.go` is embedded as pure functions over byte lists.

* Go strings and byte slices are `Bytes` (lists of byte values).
* The network connection a receiver reads is the list of bytes the peer sent
  together with a schedule saying how many bytes each `Read` hands over.
* The file system is a map from paths to contents; whether a path can be
  opened for writing is a parameter.
* A connection whose bytes are used up is at its end (the peer has closed
  it); a connection whose schedule is used up while bytes remain has failed.
* Library primitives that are not part of the repository (SHA-256, the AES
  block function) are parameters, bundled in `Crypto`.
* Paths follow the Unix flavour of `path/filepath` (separator `/`).
-/

namespace QShare

/-! ## Bytes and constants -/

/-- Go strings and byte slices. -/
abbrev Bytes := List Nat

/-- The ASCII bytes of a literal, used to write constants and examples. -/
def asc (s : String) : Bytes := s.toList.map Char.toNat

def BROADCAST_PORT : Nat := 50000
def TRANSFER_PORT : Nat := 50001
def BUFFER_SIZE : Nat := 8192

/-- The literal `<SEPARATOR>`. -/
def SEPARATOR : Bytes := [60, 83, 69, 80, 65, 82, 65, 84, 79, 82, 62]

/-- Default buffer size of `bufio.NewReader`. -/
def bufioSize : Nat := 4096

/-! ## Library functions on strings (`strings`, `fmt`, `strconv`) -/

/-- The UTF-8 encodings of the runes for which `unicode.IsSpace` holds: the
ASCII spaces, U+0085, U+00A0, U+1680, U+2000 to U+200A, U+2028, U+2029,
U+202F, U+205F and U+3000. -/
def spaceRunes : List Bytes :=
  [[9], [10], [11], [12], [13], [32], [0xC2, 0x85], [0xC2, 0xA0], [0xE1, 0x9A, 0x80],
   [0xE2, 0x80, 0x80], [0xE2, 0x80, 0x81], [0xE2, 0x80, 0x82], [0xE2, 0x80, 0x83],
   [0xE2, 0x80, 0x84], [0xE2, 0x80, 0x85], [0xE2, 0x80, 0x86], [0xE2, 0x80, 0x87],
   [0xE2, 0x80, 0x88], [0xE2, 0x80, 0x89], [0xE2, 0x80, 0x8A], [0xE2, 0x80, 0xA8],
   [0xE2, 0x80, 0xA9], [0xE2, 0x80, 0xAF], [0xE2, 0x81, 0x9F], [0xE3, 0x80, 0x80]]

/-- Length in bytes of the white-space rune at the head of the string, `0` if
the first rune is not white space (`utf8.DecodeRuneInString`, then
`unicode.IsSpace`). -/
def spaceLen (s : Bytes) : Nat :=
  match spaceRunes.find? fun e => e.isPrefixOf s with
  | some e => e.length
  | none => 0

/-- Length in bytes of the white-space rune that ends the string whose
reversed bytes are given, `0` if the last rune is not white space
(`utf8.DecodeLastRuneInString`, then `unicode.IsSpace`). -/
def spaceLenRev (r : Bytes) : Nat :=
  match spaceRunes.find? fun e => e.reverse.isPrefixOf r with
  | some e => e.length
  | none => 0

/-- Drops leading white-space runes; the first argument bounds the number of
runes dropped and is the length of the string at the call. -/
def trimLeftAux : Nat → Bytes → Bytes
  | 0, s => s
  | n + 1, s => if spaceLen s = 0 then s else trimLeftAux n (s.drop (spaceLen s))

/-- Drops trailing white-space runes of the string whose reversed bytes are given. -/
def trimRightAux : Nat → Bytes → Bytes
  | 0, r => r
  | n + 1, r => if spaceLenRev r = 0 then r else trimRightAux n (r.drop (spaceLenRev r))

/-- The function `strings.TrimLeftFunc(s, unicode.IsSpace)`. -/
def TrimLeftSpace (s : Bytes) : Bytes := trimLeftAux s.length s

/-- The function `strings.TrimRightFunc(s, unicode.IsSpace)`. -/
def TrimRightSpace (s : Bytes) : Bytes := (trimRightAux s.length s.reverse).reverse

/-- The function `strings.TrimSpace`: leading and trailing white space removed. -/
def TrimSpace (s : Bytes) : Bytes := TrimRightSpace (TrimLeftSpace s)

/-- Worker of `Split`: `skip` counts the bytes of a separator just matched that
are still to be passed over, `acc` holds the current part reversed. -/
def splitAux (sep : Bytes) : Bytes → Nat → Bytes → List Bytes
  | [], _, acc => [acc.reverse]
  | _ :: cs, skip + 1, acc => splitAux sep cs skip acc
  | c :: cs, 0, acc =>
    if sep.isPrefixOf (c :: cs) then acc.reverse :: splitAux sep cs (sep.length - 1) []
    else splitAux sep cs 0 (c :: acc)

/-- The function `strings.Split(s, sep)` for a non-empty separator: the parts
between the non-overlapping occurrences of `sep`, found left to right. -/
def Split (s sep : Bytes) : List Bytes := splitAux sep s 0 []

/-- Worker of `decimal`: digits of `n`, most significant first, put before `acc`. -/
def decimalAux : Nat → Nat → Bytes → Bytes
  | 0, _, acc => acc
  | fuel + 1, n, acc =>
    if n < 10 then (48 + n) :: acc else decimalAux fuel (n / 10) ((48 + n % 10) :: acc)

/-- The verb `%d` of `fmt.Sprintf` on a non-negative integer. -/
def decimal (n : Nat) : Bytes := decimalAux (n + 1) n []

def binaryDigits : Bytes := [48, 49]
def octalDigits : Bytes := [48, 49, 50, 51, 52, 53, 54, 55]
def decimalDigits : Bytes := [48, 49, 50, 51, 52, 53, 54, 55, 56, 57]
def hexadecimalDigits : Bytes :=
  [48, 49, 50, 51, 52, 53, 54, 55, 56, 57, 97, 65, 98, 66, 99, 67, 100, 68, 101, 69, 102, 70]

/-- ASCII lower-casing of `strconv` (`c | 0x20`). -/
def lower (c : Nat) : Nat := c ||| 32

/-- Value of a digit byte in `strconv.ParseUint`, `none` for any other byte. -/
def digitVal (c : Nat) : Option Nat :=
  if 48 ≤ c ∧ c ≤ 57 then some (c - 48)
  else if 97 ≤ lower c ∧ lower c ≤ 122 then some (lower c - 97 + 10)
  else none

/-- Digit loop of `strconv.ParseUint` with `base0` set: underscores are passed
over, a byte that is no digit of the base is a syntax error, a value that
does not fit 64 bits a range error (both `none`). -/
def parseDigits (base : Nat) : Bytes → Nat → Option Nat
  | [], n => some n
  | c :: cs, n =>
    if c = 95 then parseDigits base cs n
    else match digitVal c with
      | none => none
      | some d =>
        if d ≥ base then none
        else if n * base + d ≥ 2 ^ 64 then none
        else parseDigits base cs (n * base + d)

/-- Scanning loop of `strconv.underscoreOK`; `saw` is `0` at the start, `1`
after a digit, `2` after an underscore, `3` after anything else. -/
def underscoreLoop (hex : Bool) : Bytes → Nat → Bool
  | [], saw => saw != 2
  | c :: cs, saw =>
    if (48 ≤ c ∧ c ≤ 57) ∨ (hex = true ∧ 97 ≤ lower c ∧ lower c ≤ 102) then underscoreLoop hex cs 1
    else if c = 95 then (if saw != 1 then false else underscoreLoop hex cs 2)
    else if saw = 2 then false
    else underscoreLoop hex cs 3

/-- Whether a byte is `b`, `o` or `x` in either case. -/
def isBaseLetter (c : Nat) : Bool := lower c = 98 || lower c = 111 || lower c = 120

/-- The function `strconv.underscoreOK`: underscores only separate digits. -/
def underscoreOK (s : Bytes) : Bool :=
  let s1 := match s with
    | 43 :: r => r
    | 45 :: r => r
    | _ => s
  match s1 with
  | 48 :: c :: r => if isBaseLetter c then underscoreLoop (lower c = 120) r 1
                    else underscoreLoop false s1 0
  | _ => underscoreLoop false s1 0

/-- The function `strconv.ParseUint(s, 0, 64)`; `none` is an error. -/
def parseUint (s : Bytes) : Option Nat :=
  if s = [] then none
  else
    let (base, body) : Nat × Bytes := match s with
      | 48 :: c :: d :: r =>
        if lower c = 98 then (2, d :: r)
        else if lower c = 111 then (8, d :: r)
        else if lower c = 120 then (16, d :: r)
        else (8, c :: d :: r)
      | 48 :: r => (8, r)
      | _ => (10, s)
    match parseDigits base body 0 with
    | none => none
    | some n => if body.contains 95 && !underscoreOK s then none else some n

/-- The function `strconv.ParseInt(s, 0, 64)`; `none` is an error. -/
def parseInt (s : Bytes) : Option Int :=
  match s with
  | [] => none
  | 43 :: r => (parseUint r).bind fun un => if un ≥ 2 ^ 63 then none else some (un : Int)
  | 45 :: r => (parseUint r).bind fun un => if un > 2 ^ 63 then none else some (-(un : Int))
  | _ => (parseUint s).bind fun un => if un ≥ 2 ^ 63 then none else some (un : Int)

/-- The token `fmt.Sscan` reads for an integer with verb `%v` (`scanInt`):
leading white space skipped, an optional sign, an optional base mark, then
the digits of that base and underscores; `none` when no digit can be read. -/
def scanIntToken (str : Bytes) : Option Bytes :=
  let s := TrimLeftSpace str
  if s = [] then none
  else
    let (sign, s1) : Bytes × Bytes := match s with
      | 43 :: r => ([43], r)
      | 45 :: r => ([45], r)
      | _ => ([], s)
    match s1 with
    | 48 :: r =>
      let (mark, digits, s2) : Bytes × Bytes × Bytes := match r with
        | c :: r2 =>
          if lower c = 98 then ([48, c], binaryDigits, r2)
          else if lower c = 111 then ([48, c], octalDigits, r2)
          else if lower c = 120 then ([48, c], hexadecimalDigits, r2)
          else ([48], octalDigits, r)
        | [] => ([48], octalDigits, r)
      some (sign ++ mark ++ s2.takeWhile fun c => digits.contains c || c = 95)
    | c :: _ =>
      if decimalDigits.contains c || c = 95 then
        some (sign ++ s1.takeWhile fun c => decimalDigits.contains c || c = 95)
      else none
    | [] => none

/-- The call `fmt.Sscan(str, &filesize)` on an `int64`: the scanned value, or
`none` when the scan fails and the variable keeps its old value. -/
def Sscan (str : Bytes) : Option Int := (scanIntToken str).bind parseInt

/-! ## Library functions on paths (`path/filepath`, Unix) -/

/-- Worker of `splitSlash`; `acc` holds the current element reversed. -/
def splitSlashAux : Bytes → Bytes → List Bytes
  | [], acc => [acc.reverse]
  | c :: cs, acc => if c = 47 then acc.reverse :: splitSlashAux cs [] else splitSlashAux cs (c :: acc)

/-- The elements of a path: the byte runs between its separators `/`. -/
def splitSlash (path : Bytes) : List Bytes := splitSlashAux path []

/-- The elements of a list written one after the other with `/` between them. -/
def joinSlash : List Bytes → Bytes
  | [] => []
  | [e] => e
  | e :: es => e ++ 47 :: joinSlash es

/-- The element `..`. -/
def dotdotElem : Bytes := [46, 46]

/-- The output buffer of `filepath.Clean`: the elements written so far and the
number of leading `..` elements, below which `..` cannot backtrack. -/
structure CleanState where
  out : List Bytes
  dotdot : Nat

/-- One round of the loop of `filepath.Clean`, reading the element `e` of the
path: an empty element and `.` are passed over, `..` removes the last element
written (or is written itself when the path is not rooted and nothing can be
removed), any other element is written. -/
def cleanStep (rooted : Bool) (st : CleanState) (e : Bytes) : CleanState :=
  if e = [] ∨ e = [46] then st
  else if e = dotdotElem then
    if st.out.length > st.dotdot then { st with out := st.out.dropLast }
    else if !rooted then { out := st.out ++ [dotdotElem], dotdot := st.out.length + 1 }
    else st
  else { st with out := st.out ++ [e] }

/-- Whether a path starts with the separator. -/
def isRooted (path : Bytes) : Bool := path.head? = some 47

/-- The string `filepath.Clean` returns for the written elements. -/
def renderPath (rooted : Bool) (out : List Bytes) : Bytes :=
  if rooted then 47 :: joinSlash out
  else if out = [] then [46]
  else joinSlash out

/-- The function `filepath.Clean`. -/
def Clean (path : Bytes) : Bytes :=
  if path = [] then [46]
  else renderPath (isRooted path) ((splitSlash path).foldl (cleanStep (isRooted path)) ⟨[], 0⟩).out

/-- The function `filepath.Join`: the elements from the first non-empty one on,
joined with `/` and cleaned; the empty string when all are empty. -/
def Join (elem : List Bytes) : Bytes :=
  match elem.dropWhile fun e => e = [] with
  | [] => []
  | es => Clean (joinSlash es)

/-- The function `filepath.Base`: the last element of the path, with trailing
separators removed first; `.` for the empty path and `/` for a path of
separators only. -/
def Base (path : Bytes) : Bytes :=
  if path = [] then [46]
  else
    let stripped := (path.reverse.dropWhile fun c => c = 47).reverse
    let last := (stripped.reverse.takeWhile fun c => c ≠ 47).reverse
    if last = [] then [47] else last

/-! ## Cipher layer (`crypto/sha256`, `crypto/aes`, `crypto/cipher`) -/

/-- The primitives of the Go library the program calls and does not define:
SHA-256 (`sha256.Sum256` returns a `[32]byte`) and the AES block function
(key and 16-byte block to 16-byte block). -/
structure Crypto where
  sha256 : Bytes → Bytes
  sha256_length : ∀ m, (sha256 m).length = 32
  aesBlock : Bytes → Bytes → Bytes

/-- The passphrase hashed into the transfer key. -/
def deriveKey (c : Crypto) (passphrase : Bytes) : Bytes := c.sha256 passphrase

/-- The error of `aes.NewCipher`. -/
inductive CipherError where
  | keySize (n : Nat)
  deriving DecidableEq, Repr

/-- The function `aes.NewCipher`: keys of 16, 24 or 32 bytes are accepted. -/
def aesNewCipher (c : Crypto) (key : Bytes) : Except CipherError (Bytes → Bytes) :=
  if key.length = 16 ∨ key.length = 24 ∨ key.length = 32 then .ok (c.aesBlock key)
  else .error (.keySize key.length)

/-- The size `aes.BlockSize`. -/
def aesBlockSize : Nat := 16

/-- The stream `cipher.NewCTR(block, iv)` after `pos` keystream bytes were used. -/
structure CTR where
  block : Bytes → Bytes
  iv : Bytes
  pos : Nat

/-- Big-endian value of a byte string. -/
def beValue (b : Bytes) : Nat := b.foldl (fun v x => v * 256 + x) 0

/-- The 16 bytes of a counter value, big-endian. -/
def beBytes16 (v : Nat) : Bytes := (List.range 16).map fun i => v / 256 ^ (15 - i) % 256

/-- Keystream byte number `p` of a counter-mode stream: byte `p % 16` of the
encryption of the counter block `iv + p / 16` (modulo `2 ^ 128`). -/
def CTR.keystreamByte (s : CTR) (p : Nat) : Nat :=
  (s.block (beBytes16 ((beValue s.iv + p / 16) % 2 ^ 128))).getD (p % 16) 0

/-- The bytes of `src` combined by exclusive or with the keystream from position `p` on. -/
def CTR.xorFrom (s : CTR) : Nat → Bytes → Bytes
  | _, [] => []
  | p, b :: bs => (b ^^^ s.keystreamByte p) :: CTR.xorFrom s (p + 1) bs

/-- The method `XORKeyStream`: the stream moved on by `len(src)` and the output. -/
def CTR.XORKeyStream (s : CTR) (src : Bytes) : CTR × Bytes :=
  ({ s with pos := s.pos + src.length }, s.xorFrom s.pos src)

/-- The type `cipher.StreamWriter`; the sink `W` is the connection. -/
structure StreamWriter where
  S : CTR

/-- The type `cipher.StreamReader`; the source `R` is the connection. -/
structure StreamReader where
  S : CTR

/-- The method `StreamWriter.Write(src)`: the writer afterwards and the bytes it
hands to `W.Write`. -/
def StreamWriter.Write (w : StreamWriter) (src : Bytes) : StreamWriter × Bytes :=
  ((⟨(w.S.XORKeyStream src).1⟩ : StreamWriter), (w.S.XORKeyStream src).2)

/-- The method `StreamReader.Read(dst)` when `R.Read(dst)` returned the bytes
`got`: the reader afterwards and the bytes left in `dst[:n]`. -/
def StreamReader.Read (r : StreamReader) (got : Bytes) : StreamReader × Bytes :=
  ((⟨(r.S.XORKeyStream got).1⟩ : StreamReader), (r.S.XORKeyStream got).2)

/-- The function `encryptStream`: a counter-mode writer with the all-zero
initialization value, or the error of `aes.NewCipher`. -/
def encryptStream (c : Crypto) (key : Bytes) : Except CipherError StreamWriter :=
  match aesNewCipher c key with
  | .error err => .error err
  | .ok block => .ok ⟨⟨block, List.replicate aesBlockSize 0, 0⟩⟩

/-- The function `decryptStream`: a counter-mode reader with the all-zero
initialization value, or the error of `aes.NewCipher`. -/
def decryptStream (c : Crypto) (key : Bytes) : Except CipherError StreamReader :=
  match aesNewCipher c key with
  | .error err => .error err
  | .ok block => .ok ⟨⟨block, List.replicate aesBlockSize 0, 0⟩⟩

/-- The writes of a sequence of chunks through a `StreamWriter`: the writer
afterwards and what reached the sink, one entry per `Write`. -/
def writeChunks : StreamWriter → List Bytes → StreamWriter × List Bytes
  | w, [] => (w, [])
  | w, ch :: rest =>
    ((writeChunks (w.Write ch).1 rest).1, (w.Write ch).2 :: (writeChunks (w.Write ch).1 rest).2)

/-- The reads of a `StreamReader` whose source returns the given chunks, one
per `Read`: the reader afterwards and what each `Read` returned. -/
def readChunks : StreamReader → List Bytes → StreamReader × List Bytes
  | r, [] => (r, [])
  | r, ch :: rest =>
    ((readChunks (r.Read ch).1 rest).1, (r.Read ch).2 :: (readChunks (r.Read ch).1 rest).2)

/-! ## Peer registry and discovery listener -/

/-- The map `devices`: peer name to address. -/
abbrev Registry := Bytes → Option Bytes

/-- What one `conn.ReadFromUDP(buf)` of the listener returns: an error, or a
datagram with its payload and the text of its source IP. -/
inductive UDPRead where
  | error
  | datagram (payload : Bytes) (ip : Bytes)
  deriving DecidableEq, Repr

/-- The name a datagram announces: the receive buffer holds 1024 bytes, and
the listener trims what it received. -/
def announcedName (payload : Bytes) : Bytes := TrimSpace (payload.take 1024)

/-- One round of the loop of `listener`. -/
def listenerStep (devices : Registry) : UDPRead → Registry
  | .error => devices
  | .datagram payload ip => fun name => if name = announcedName payload then some ip else devices name

/-- The registry after `listener` has processed a sequence of reads. -/
def listener (devices : Registry) (reads : List UDPRead) : Registry :=
  reads.foldl listenerStep devices

/-! ## Transfer sender -/

/-- What `sendFiles` finds outside the program: whether a dial to an address
succeeds, the size `os.Stat` reports for a path (`none` when it fails) and
the bytes `os.Open` and `file.Read` deliver (`none` when they fail). -/
structure SendEnv where
  dial : Bytes → Bool
  stat : Bytes → Option Nat
  content : Bytes → Option Bytes

/-- The network operations of `sendFiles`, in the order it performs them. -/
inductive NetEvent where
  | dial (addr : Bytes)
  | write (b : Bytes)
  | encWrite (b : Bytes)
  deriving DecidableEq, Repr

/-- The chunks successive `file.Read(buf)` calls return for a regular file,
`buf` holding `BUFFER_SIZE` bytes; the first argument bounds the number of
reads and is the length of the file at the call. -/
def fileChunks : Nat → Bytes → List Bytes
  | 0, _ => []
  | n + 1, b => if b = [] then [] else b.take BUFFER_SIZE :: fileChunks n (b.drop BUFFER_SIZE)

/-- The chunks the read loop of `sendFiles` gets from the file at a path: none
when `os.Open` fails, since the first read on the nil file is an error. -/
def pathChunks (env : SendEnv) (path : Bytes) : List Bytes :=
  match env.content path with
  | none => []
  | some b => fileChunks b.length b

/-- The read loop of `sendFiles` on one file: every chunk goes through
`encWriter.Write`. A write through the zero `StreamWriter` panics. -/
def sendPayload : Option StreamWriter → List Bytes → Option StreamWriter × List NetEvent × Bool
  | w, [] => (w, [], false)
  | none, _ :: _ => (none, [], true)
  | some w, ch :: rest =>
    let r := sendPayload (some (w.Write ch).1) rest
    (r.1, NetEvent.encWrite (w.Write ch).2 :: r.2.1, r.2.2)

/-- The metadata line of a file. -/
def metaLine (filename : Bytes) (filesize : Nat) : Bytes :=
  filename ++ SEPARATOR ++ decimal filesize ++ [10]

/-- The loop of `sendFiles` over the paths: the events written to the
connection and whether the program panicked. -/
def sendLoop (env : SendEnv) : Option StreamWriter → List Bytes → List NetEvent × Bool
  | _, [] => ([], false)
  | w, path :: rest =>
    match env.stat path with
    | none => sendLoop env w rest
    | some filesize =>
      let r := sendPayload w (pathChunks env path)
      if r.2.2 then (NetEvent.write (metaLine (Base path) filesize) :: r.2.1, true)
      else
        let t := sendLoop env r.1 rest
        (NetEvent.write (metaLine (Base path) filesize) :: r.2.1 ++ t.1, t.2)

/-- The address `sendFiles` dials for a target. -/
def dialAddr (devices : Registry) (target : Bytes) : Bytes :=
  (devices target).getD [] ++ (58 :: decimal TRANSFER_PORT)

/-- The function `sendFiles`: the network operations it performs, in order, and
whether it panicked. The target is looked up in `devices` (the empty string
for a missing key), the address is dialled, and on success every path is
sent over the connection. -/
def sendFiles (c : Crypto) (env : SendEnv) (devices : Registry) (paths : List Bytes)
    (target : Bytes) : List NetEvent × Bool :=
  let addr := dialAddr devices target
  if env.dial addr then
    let key := deriveKey c (asc "qshare")
    let encWriter := (encryptStream c key).toOption
    let r := sendLoop env encWriter paths
    (NetEvent.dial addr :: r.1, r.2)
  else ([NetEvent.dial addr], false)

/-- The bytes an event puts on the connection. -/
def NetEvent.bytes : NetEvent → Bytes
  | .dial _ => []
  | .write b => b
  | .encWrite b => b

/-- The byte stream the peer receives. -/
def wire (events : List NetEvent) : Bytes := (events.map NetEvent.bytes).flatten

/-- The metadata lines among the events: the direct writes to the connection. -/
def metaLines (events : List NetEvent) : List Bytes :=
  events.filterMap fun e => match e with
    | .write b => some b
    | _ => none

/-! ## Transfer receiver -/

/-- The files of the receiving machine: path to contents. -/
abbrev Files := Bytes → Option Bytes

/-- The call `os.OpenFile(path, os.O_CREATE|os.O_WRONLY, 0644)`: the handle
(`none` when the call fails) and the files afterwards. A missing file is
created empty; an existing one keeps its contents. -/
def OpenFile (canOpen : Bytes → Bool) (files : Files) (path : Bytes) : Option Bytes × Files :=
  if canOpen path then
    (some path, fun p => if p = path then some ((files path).getD []) else files p)
  else (none, files)

/-- A file after `b` is written at offset `off`. -/
def writeAt (old : Bytes) (off : Nat) (b : Bytes) : Bytes :=
  if b = [] then old
  else old.take off ++ List.replicate (off - old.length) 0 ++ b ++ old.drop (off + b.length)

/-- The call `out.Write(b)` on a handle whose offset is `off`; nothing happens
on the nil handle, and a file no longer among the files stays absent. -/
def fileWrite (files : Files) (out : Option Bytes) (off : Nat) (b : Bytes) : Files :=
  match out with
  | none => files
  | some path => fun p =>
    if p = path then (files path).map fun old => writeAt old off b else files p

/-- Number of bytes a `conn.Read(p)` returns when the schedule says `k`, `p`
holds `cap` bytes and `avail` bytes are there: at least one, at most what
fits and what is there. -/
def readLen (k cap avail : Nat) : Nat := max 1 (min k (min cap avail))

/-- Errors of a read: end of stream, or any other failure of the connection. -/
inductive IOError where
  | EOF
  | other
  deriving DecidableEq, Repr

/-- The line through the first `delim` of a buffer and the rest, `none` when
the buffer holds no `delim`. -/
def cutLine (delim : Nat) : Bytes → Option (Bytes × Bytes)
  | [] => none
  | c :: cs =>
    if c = delim then some ([c], cs)
    else match cutLine delim cs with
      | none => none
      | some (l, r) => some (c :: l, r)

/-- What `reader.ReadString` returns and leaves behind. -/
structure ReadStringResult where
  line : Bytes
  err : Option IOError
  buf : Bytes
  data : Bytes
  sched : List Nat

/-- The method `ReadString(delim)` of a `bufio.Reader` on the connection. `buf`
is what the reader holds unread, `data` what the connection still holds,
`sched` the sizes of the reads to come (none left: the connection fails) and
`full` the fragments collected so far. Each round looks for the delimiter in
the buffer and otherwise fills the buffer with one `conn.Read`. -/
def ReadString (delim : Nat) (sched : List Nat) (data buf full : Bytes) : ReadStringResult :=
  match cutLine delim buf with
  | some (line, rest) => ⟨full ++ line, none, rest, data, sched⟩
  | none =>
    let full1 := if bufioSize ≤ buf.length then full ++ buf else full
    let buf1 := if bufioSize ≤ buf.length then [] else buf
    if data = [] then ⟨full1 ++ buf1, some .EOF, [], data, sched⟩
    else match sched with
      | [] => ⟨full1 ++ buf1, some .other, [], data, []⟩
      | k :: sched1 =>
        ReadString delim sched1 (data.drop (readLen k (bufioSize - buf1.length) data.length))
          (buf1 ++ data.take (readLen k (bufioSize - buf1.length) data.length)) full1

/-- What the payload loop leaves behind. -/
structure PayloadResult where
  dec : Option StreamReader
  data : Bytes
  sched : List Nat
  files : Files
  written : Nat
  panicked : Bool

/-- The payload loop of `handleConnection` (`for written < filesize`): each
round reads into the whole buffer of `BUFFER_SIZE` bytes through `decReader`,
cuts what it got to the bytes still missing, writes them to `out` and adds
them to `written`. A read through the zero `StreamReader` panics. -/
def payloadLoop (filesize : Int) (out : Option Bytes) (sched : List Nat) (data : Bytes)
    (dec : Option StreamReader) (files : Files) (written : Nat) : PayloadResult :=
  if (written : Int) < filesize then
    match dec with
    | none => ⟨dec, data, sched, files, written, true⟩
    | some r =>
      if data = [] then ⟨dec, data, sched, files, written, false⟩
      else match sched with
        | [] => ⟨dec, data, sched, files, written, false⟩
        | k :: sched1 =>
          let n := readLen k BUFFER_SIZE data.length
          let remaining := filesize - written
          let m := if (n : Int) > remaining then remaining.toNat else n
          payloadLoop filesize out sched1 (data.drop n) (some (r.Read (data.take n)).1)
            (fileWrite files out written ((r.Read (data.take n)).2.take m)) (written + m)
  else ⟨dec, data, sched, files, written, false⟩

/-- How far `handleConnection` has come. -/
inductive Status where
  | running
  | finished
  | failed
  | panicked
  deriving DecidableEq, Repr

/-- The state of `handleConnection`: the connection (`data`, `sched`), the
buffer of the line reader, the decrypting reader, the files, and the paths
passed to `os.OpenFile` so far. -/
structure Recv where
  data : Bytes
  sched : List Nat
  buf : Bytes
  dec : Option StreamReader
  files : Files
  opened : List Bytes
  status : Status

/-- The parse of a metadata line in `handleConnection`: the line is trimmed
and split at the separator; with fewer than two parts the line is passed
over (`none`), otherwise the first part is the file name and the second is
scanned into `filesize`, which stays `0` when the scan fails. -/
def parseMeta (line : Bytes) : Option (Bytes × Int) :=
  match Split (TrimSpace line) SEPARATOR with
  | filename :: sizeText :: _ => some (filename, (Sscan sizeText).getD 0)
  | _ => none

/-- One round of the loop of `handleConnection`. -/
def handleStep (canOpen : Bytes → Bool) (saveDir : Bytes) (s : Recv) : Recv :=
  let l := ReadString 10 s.sched s.data s.buf []
  match l.err with
  | some err =>
    { s with data := l.data, sched := l.sched, buf := l.buf,
             status := if err = IOError.EOF then Status.finished else Status.failed }
  | none =>
    match parseMeta l.line with
    | some (filename, filesize) =>
      let savePath := Join [saveDir, filename]
      let o := OpenFile canOpen s.files savePath
      let p := payloadLoop filesize o.1 l.sched l.data s.dec o.2 0
      { data := p.data, sched := p.sched, buf := l.buf, dec := p.dec, files := p.files,
        opened := s.opened ++ [savePath],
        status := if p.panicked then Status.panicked else Status.running }
    | none => { s with data := l.data, sched := l.sched, buf := l.buf }

/-- The loop of `handleConnection`, at most `n` rounds. -/
def handleLoop (canOpen : Bytes → Bool) (saveDir : Bytes) : Nat → Recv → Recv
  | 0, s => s
  | n + 1, s =>
    if (handleStep canOpen saveDir s).status = Status.running then
      handleLoop canOpen saveDir n (handleStep canOpen saveDir s)
    else handleStep canOpen saveDir s

/-- The state in which `handleConnection` enters its loop. -/
def initRecv (c : Crypto) (data : Bytes) (sched : List Nat) (files : Files) : Recv :=
  { data := data, sched := sched, buf := [],
    dec := (decryptStream c (deriveKey c (asc "qshare"))).toOption,
    files := files, opened := [], status := Status.running }

/-- The function `handleConnection` on a connection that delivers `data` in
reads of the sizes `sched`. Every round that goes on takes at least one byte
(the newline of its line), so `data.length + 1` rounds reach the end. -/
def handleConnection (c : Crypto) (canOpen : Bytes → Bool) (data : Bytes) (sched : List Nat)
    (saveDir : Bytes) (files : Files) : Recv :=
  handleLoop canOpen saveDir (data.length + 1) (initRecv c data sched files)

/-! ## Example parameters -/

/-- A stand-in for the library primitives, used where an example needs
concrete values: the hash is 32 zero bytes and the block function adds the
first key byte and the position to each byte of the block. -/
def toyCrypto : Crypto where
  sha256 := fun _ => List.replicate 32 0
  sha256_length := fun _ => by simp
  aesBlock := fun key blk => (List.range 16).map fun i => (blk.getD i 0 + key.getD 0 0 + 7 * i + 3) % 256

/-! ## Notions used in the statements -/

/-- Whether a read is a datagram that announces `name`. -/
def announces (name : Bytes) : UDPRead → Bool
  | .error => false
  | .datagram payload _ => announcedName payload = name

/-- The elements of a path that name something: not empty and not `.`. -/
def pathElems (path : Bytes) : List Bytes :=
  (splitSlash path).filter fun e => decide (e ≠ [] ∧ e ≠ [46])

/-- A path lies under a directory: both are rooted or both are not, and the
elements of the path are those of the cleaned directory followed by further
elements, none of them `..`. -/
def liesUnder (dir path : Bytes) : Bool :=
  isRooted path == isRooted (Clean dir) &&
  (pathElems (Clean dir)).isPrefixOf (pathElems path) &&
  !((pathElems path).drop (pathElems (Clean dir)).length).contains dotdotElem

/-- An element as `Clean` writes it: not empty, without separator, not `.`. -/
def Proper (e : Bytes) : Prop := e ≠ [] ∧ 47 ∉ e ∧ e ≠ [46]

/-- The environment of a sender with two files, `a.txt` holding `hi` and
`b.txt` holding `bye`. -/
def twoFiles : SendEnv where
  dial := fun _ => true
  stat := fun p =>
    if p = asc "/tmp/a.txt" then some 2 else if p = asc "/tmp/b.txt" then some 3 else none
  content := fun p =>
    if p = asc "/tmp/a.txt" then some (asc "hi")
    else if p = asc "/tmp/b.txt" then some (asc "bye") else none

/-- A registry that knows one peer. -/
def onePeer : Registry := fun name => if name = asc "host1" then some (asc "10.0.0.5") else none

/-! ## Theorems -/

/-! ### Cipher lemmas -/

theorem xorFrom_congr (s t : CTR) (hb : s.block = t.block) (hi : s.iv = t.iv) (p : Nat) (b : Bytes) :
    s.xorFrom p b = t.xorFrom p b := by
  induction b generalizing p with
  | nil => rfl
  | cons x xs ih => simp [CTR.xorFrom, CTR.keystreamByte, hb, hi, ih]

theorem xorFrom_append (s : CTR) (p : Nat) (a b : Bytes) :
    s.xorFrom p (a ++ b) = s.xorFrom p a ++ s.xorFrom (p + a.length) b := by
  induction a generalizing p with
  | nil => simp [CTR.xorFrom]
  | cons x xs ih =>
    have h := ih (p + 1)
    rw [show p + 1 + xs.length = p + (xs.length + 1) by omega] at h
    simp only [List.cons_append, CTR.xorFrom, List.append_eq, h, List.length_cons]

theorem xorFrom_length (s : CTR) (p : Nat) (b : Bytes) : (s.xorFrom p b).length = b.length := by
  induction b generalizing p with
  | nil => rfl
  | cons x xs ih => simp [CTR.xorFrom, ih]

theorem xorFrom_xorFrom (s : CTR) (p : Nat) (b : Bytes) : s.xorFrom p (s.xorFrom p b) = b := by
  induction b generalizing p with
  | nil => rfl
  | cons x xs ih =>
    simp only [CTR.xorFrom, ih, List.cons.injEq, and_true]
    rw [Nat.xor_assoc, Nat.xor_self, Nat.xor_zero]

theorem writeChunks_spec (w : StreamWriter) (chunks : List Bytes) :
    (writeChunks w chunks).2.flatten = w.S.xorFrom w.S.pos chunks.flatten ∧
    (writeChunks w chunks).1.S = { w.S with pos := w.S.pos + chunks.flatten.length } := by
  induction chunks generalizing w with
  | nil => simp [writeChunks, CTR.xorFrom]
  | cons ch rest ih =>
    obtain ⟨h1, h2⟩ := ih (w.Write ch).1
    simp only [writeChunks, List.flatten_cons, h1, h2, xorFrom_append, List.length_append]
    constructor
    · simp only [StreamWriter.Write, CTR.XORKeyStream]
      congr 1
      apply xorFrom_congr <;> rfl
    · simp only [StreamWriter.Write, CTR.XORKeyStream, Nat.add_assoc]

theorem readChunks_spec (r : StreamReader) (chunks : List Bytes) :
    (readChunks r chunks).2.flatten = r.S.xorFrom r.S.pos chunks.flatten ∧
    (readChunks r chunks).1.S = { r.S with pos := r.S.pos + chunks.flatten.length } := by
  induction chunks generalizing r with
  | nil => simp [readChunks, CTR.xorFrom]
  | cons ch rest ih =>
    obtain ⟨h1, h2⟩ := ih (r.Read ch).1
    simp only [readChunks, List.flatten_cons, h1, h2, xorFrom_append, List.length_append]
    constructor
    · simp only [StreamReader.Read, CTR.XORKeyStream]
      congr 1
      apply xorFrom_congr <;> rfl
    · simp only [StreamReader.Read, CTR.XORKeyStream, Nat.add_assoc]

/-- Claim C2: for every key the cipher accepts (16, 24 or 32 bytes), `encryptStream`
and `decryptStream` both succeed, both streams start from the all-zero
initialization value, and for every byte sequence cut into write chunks and
every way of cutting the resulting ciphertext into read chunks, what the
reader returns is the sequence written; each side's keystream position has
moved on by the number of bytes it processed. -/
theorem encrypt_decrypt_roundtrip (c : Crypto) (key : Bytes)
    (hkey : key.length = 16 ∨ key.length = 24 ∨ key.length = 32) :
    ∃ w r, encryptStream c key = .ok w ∧ decryptStream c key = .ok r ∧
      w.S.iv = List.replicate 16 0 ∧ r.S.iv = List.replicate 16 0 ∧
      ∀ writes reads : List Bytes, reads.flatten = (writeChunks w writes).2.flatten →
        (readChunks r reads).2.flatten = writes.flatten ∧
        (writeChunks w writes).1.S.pos = writes.flatten.length ∧
        (readChunks r reads).1.S.pos = reads.flatten.length := by
  refine ⟨⟨⟨c.aesBlock key, List.replicate aesBlockSize 0, 0⟩⟩,
    ⟨⟨c.aesBlock key, List.replicate aesBlockSize 0, 0⟩⟩, ?_, ?_, rfl, rfl, ?_⟩
  · simp [encryptStream, aesNewCipher, hkey]
  · simp [decryptStream, aesNewCipher, hkey]
  · intro writes reads h
    obtain ⟨hw1, hw2⟩ := writeChunks_spec ⟨⟨c.aesBlock key, List.replicate aesBlockSize 0, 0⟩⟩ writes
    obtain ⟨hr1, hr2⟩ := readChunks_spec ⟨⟨c.aesBlock key, List.replicate aesBlockSize 0, 0⟩⟩ reads
    refine ⟨?_, ?_, ?_⟩
    · rw [hr1, h, hw1]; exact xorFrom_xorFrom _ _ _
    · rw [hw2]; simp
    · rw [hr2]; simp

/-- Witness for C2: a 32-byte key with the example primitives. -/
theorem encrypt_decrypt_roundtrip_witness :
    ∃ w r, encryptStream toyCrypto (List.replicate 32 7) = .ok w ∧
      decryptStream toyCrypto (List.replicate 32 7) = .ok r ∧
      w.S.iv = List.replicate 16 0 ∧ r.S.iv = List.replicate 16 0 ∧
      ∀ writes reads : List Bytes, reads.flatten = (writeChunks w writes).2.flatten →
        (readChunks r reads).2.flatten = writes.flatten ∧
        (writeChunks w writes).1.S.pos = writes.flatten.length ∧
        (readChunks r reads).1.S.pos = reads.flatten.length :=
  encrypt_decrypt_roundtrip toyCrypto (List.replicate 32 7) (by decide)

/-! ### Registry -/

theorem listener_append (devices : Registry) (a b : List UDPRead) :
    listener devices (a ++ b) = listener (listener devices a) b := by
  simp [listener, List.foldl_append]

theorem listener_unannounced (name : Bytes) (reads : List UDPRead) (devices : Registry)
    (h : ∀ r ∈ reads, announces name r = false) : listener devices reads name = devices name := by
  induction reads generalizing devices with
  | nil => rfl
  | cons r rest ih =>
    have hrest : ∀ r ∈ rest, announces name r = false := fun x hx => h x (List.mem_cons_of_mem _ hx)
    have hr := h r (List.mem_cons_self _ _)
    show listener (listenerStep devices r) rest name = devices name
    rw [ih _ hrest]
    cases r with
    | error => rfl
    | datagram payload ip =>
      have : name ≠ announcedName payload := fun e => by simp [announces, e] at hr
      simp [listenerStep, this]

theorem listener_keeps (name : Bytes) (reads : List UDPRead) (devices : Registry)
    (h : devices name ≠ none) : listener devices reads name ≠ none := by
  induction reads generalizing devices with
  | nil => exact h
  | cons r rest ih =>
    show listener (listenerStep devices r) rest name ≠ none
    apply ih
    cases r with
    | error => exact h
    | datagram payload ip =>
      simp only [listenerStep]
      split
      · simp
      · exact h

/-- Claim C10: after the listener has processed any sequence of reads, a name
announced by a datagram maps to the source IP of the last datagram that
announced it; a name no datagram announced keeps its entry; one datagram
leaves the entry of every other name as it was; an entry is never removed;
and the announced name is the trimmed payload (of at most 1024 bytes). -/
theorem registry_last_write_wins (devices : Registry) (reads : List UDPRead) :
    (∀ before after payload ip, reads = before ++ UDPRead.datagram payload ip :: after →
        (∀ r ∈ after, announces (announcedName payload) r = false) →
        listener devices reads (announcedName payload) = some ip) ∧
    (∀ name, (∀ r ∈ reads, announces name r = false) → listener devices reads name = devices name) ∧
    (∀ payload ip name, name ≠ announcedName payload →
        listenerStep devices (UDPRead.datagram payload ip) name = devices name) ∧
    (∀ name, devices name ≠ none → listener devices reads name ≠ none) ∧
    (∀ payload : Bytes, payload.length ≤ 1024 → announcedName payload = TrimSpace payload) := by
  refine ⟨?_, ?_, ?_, ?_, ?_⟩
  · intro before after payload ip hreads hafter
    subst hreads
    rw [listener_append]
    show listener (listenerStep (listener devices before) (UDPRead.datagram payload ip)) after
      (announcedName payload) = some ip
    rw [listener_unannounced _ _ _ hafter]
    simp [listenerStep]
  · intro name h
    exact listener_unannounced name reads devices h
  · intro payload ip name h
    simp [listenerStep, h]
  · intro name h
    exact listener_keeps name reads devices h
  · intro payload h
    simp [announcedName, List.take_of_length_le h]

/-- Witness for C10: of two datagrams announcing `host1`, the later address is kept. -/
theorem registry_last_write_wins_witness :
    listener (fun _ => none)
      [UDPRead.datagram (asc " host1") (asc "10.0.0.5"), UDPRead.error,
       UDPRead.datagram (asc "host2") (asc "10.0.0.7"),
       UDPRead.datagram (asc "host1" ++ [10]) (asc "10.0.0.9"),
       UDPRead.datagram (asc "host3") (asc "10.0.0.8")]
      (announcedName (asc "host1" ++ [10])) = some (asc "10.0.0.9") :=
  (registry_last_write_wins (fun _ => none) _).1
    [UDPRead.datagram (asc " host1") (asc "10.0.0.5"), UDPRead.error,
     UDPRead.datagram (asc "host2") (asc "10.0.0.7")]
    [UDPRead.datagram (asc "host3") (asc "10.0.0.8")]
    (asc "host1" ++ [10]) (asc "10.0.0.9") rfl (by decide)

/-! ### Sender -/

/-- Counterexample to C3: with the target `nonexistent` absent from the
registry and a listener on the local transfer port, `sendFiles` dials
`:50001` and writes the file to that connection. -/
theorem sendFiles_unknown_target_counterexample :
    onePeer (asc "nonexistent") = none ∧
    (sendFiles toyCrypto twoFiles onePeer [asc "/tmp/a.txt"] (asc "nonexistent")).1.head?
      = some (NetEvent.dial (asc ":50001")) ∧
    metaLines (sendFiles toyCrypto twoFiles onePeer [asc "/tmp/a.txt"] (asc "nonexistent")).1
      = [asc "a.txt<SEPARATOR>2" ++ [10]] ∧
    (wire (sendFiles toyCrypto twoFiles onePeer [asc "/tmp/a.txt"] (asc "nonexistent")).1).length
      = 20 := by
  decide

/-- Claim C3, amended: for a target that is not a key of the registry `sendFiles`
raises no error of its own; it takes the empty address, so the first thing
it does is dial `:50001`. When that dial fails it does nothing more and no
byte is written; in every case it behaves as for a peer registered with the
empty address. -/
theorem sendFiles_unknown_target (c : Crypto) (env : SendEnv) (devices : Registry)
    (paths : List Bytes) (target : Bytes) (h : devices target = none) :
    dialAddr devices target = 58 :: decimal TRANSFER_PORT ∧
    (sendFiles c env devices paths target).1.head? = some (NetEvent.dial (58 :: decimal TRANSFER_PORT)) ∧
    (env.dial (58 :: decimal TRANSFER_PORT) = false →
      sendFiles c env devices paths target = ([NetEvent.dial (58 :: decimal TRANSFER_PORT)], false)) ∧
    sendFiles c env devices paths target = sendFiles c env (fun _ => some []) paths target := by
  have haddr : dialAddr devices target = 58 :: decimal TRANSFER_PORT := by
    simp [dialAddr, h]
  have haddr2 : dialAddr (fun _ => some []) target = 58 :: decimal TRANSFER_PORT := by
    simp [dialAddr]
  refine ⟨haddr, ?_, ?_, ?_⟩
  · simp only [sendFiles, haddr]
    split <;> rfl
  · intro hd
    simp [sendFiles, haddr, hd]
  · simp only [sendFiles, haddr, haddr2]

/-- Witness for C3 (amended): an unknown target and a dial that succeeds. -/
theorem sendFiles_unknown_target_witness :
    onePeer (asc "nonexistent") = none ∧
    dialAddr onePeer (asc "nonexistent") = 58 :: decimal TRANSFER_PORT ∧
    (sendFiles toyCrypto twoFiles onePeer [asc "/tmp/a.txt"] (asc "nonexistent")).1.head?
      = some (NetEvent.dial (58 :: decimal TRANSFER_PORT)) ∧
    (twoFiles.dial (58 :: decimal TRANSFER_PORT) = false →
      sendFiles toyCrypto twoFiles onePeer [asc "/tmp/a.txt"] (asc "nonexistent")
        = ([NetEvent.dial (58 :: decimal TRANSFER_PORT)], false)) ∧
    sendFiles toyCrypto twoFiles onePeer [asc "/tmp/a.txt"] (asc "nonexistent")
      = sendFiles toyCrypto twoFiles (fun _ => some []) [asc "/tmp/a.txt"] (asc "nonexistent") :=
  ⟨by decide, sendFiles_unknown_target toyCrypto twoFiles onePeer [asc "/tmp/a.txt"]
    (asc "nonexistent") (by decide)⟩

/-! ### Decimal text -/

theorem decimalAux_fuel (n : Nat) : ∀ (f g : Nat) (acc : Bytes), n < f → n < g →
    decimalAux f n acc = decimalAux g n [] ++ acc := by
  induction n using Nat.strong_induction_on with
  | _ n ih =>
    intro f g acc hf hg
    obtain ⟨f1, rfl⟩ : ∃ k, f = k + 1 := ⟨f - 1, by omega⟩
    obtain ⟨g1, rfl⟩ : ∃ k, g = k + 1 := ⟨g - 1, by omega⟩
    by_cases h10 : n < 10
    · simp [decimalAux, h10]
    · have hdiv : n / 10 < n := Nat.div_lt_self (by omega) (by omega)
      simp only [decimalAux, h10, if_false]
      rw [ih (n / 10) hdiv f1 g1 _ (by omega) (by omega),
        ih (n / 10) hdiv g1 g1 [48 + n % 10] (by omega) (by omega)]
      simp

theorem decimal_small (n : Nat) (h : n < 10) : decimal n = [48 + n] := by
  simp [decimal, decimalAux, h]

theorem decimal_step (n : Nat) (h : ¬ n < 10) : decimal n = decimal (n / 10) ++ [48 + n % 10] := by
  have hdiv : n / 10 < n := Nat.div_lt_self (by omega) (by omega)
  simp only [decimal, decimalAux, h, if_false]
  exact decimalAux_fuel (n / 10) n (n / 10 + 1) _ hdiv (by omega)

theorem decimal_digits (n : Nat) : ∀ b ∈ decimal n, 48 ≤ b ∧ b ≤ 57 := by
  induction n using Nat.strong_induction_on with
  | _ n ih =>
    by_cases h10 : n < 10
    · rw [decimal_small n h10]
      intro b hb
      simp only [List.mem_singleton] at hb
      omega
    · rw [decimal_step n h10]
      intro b hb
      rcases List.mem_append.mp hb with hb | hb
      · exact ih (n / 10) (Nat.div_lt_self (by omega) (by omega)) b hb
      · simp only [List.mem_singleton] at hb
        omega

theorem decimal_ne_nil (n : Nat) : decimal n ≠ [] := by
  by_cases h10 : n < 10
  · rw [decimal_small n h10]; simp
  · rw [decimal_step n h10]; simp

theorem decimal_head (n : Nat) (hn : 0 < n) : ∃ d rest, decimal n = d :: rest ∧ 49 ≤ d ∧ d ≤ 57 := by
  induction n using Nat.strong_induction_on with
  | _ n ih =>
    by_cases h10 : n < 10
    · exact ⟨48 + n, [], decimal_small n h10, by omega, by omega⟩
    · obtain ⟨d, rest, hd, h1, h2⟩ := ih (n / 10) (Nat.div_lt_self (by omega) (by omega))
        (Nat.div_pos (by omega) (by omega))
      exact ⟨d, rest ++ [48 + n % 10], by rw [decimal_step n h10, hd]; rfl, h1, h2⟩

theorem decimal_getLast (n : Nat) : ∃ body d, decimal n = body ++ [d] ∧ 48 ≤ d ∧ d ≤ 57 := by
  by_cases h10 : n < 10
  · exact ⟨[], 48 + n, decimal_small n h10, by omega, by omega⟩
  · exact ⟨decimal (n / 10), 48 + n % 10, decimal_step n h10, by omega, by omega⟩

/-! ### Scanning a decimal text -/

theorem parseDigits_append (base : Nat) (xs ys : Bytes) (v : Nat) :
    parseDigits base (xs ++ ys) v = (parseDigits base xs v).bind (parseDigits base ys) := by
  induction xs generalizing v with
  | nil => rfl
  | cons c cs ih =>
    simp only [List.cons_append, parseDigits]
    split
    · exact ih v
    · split
      · rfl
      · split
        · rfl
        · split
          · rfl
          · exact ih _

theorem digitVal_digit (d : Nat) (h : d < 10) : digitVal (48 + d) = some d := by
  simp [digitVal]
  omega

theorem parseDigits_decimal (n : Nat) (h : n < 2 ^ 64) : parseDigits 10 (decimal n) 0 = some n := by
  induction n using Nat.strong_induction_on with
  | _ n ih =>
    by_cases h10 : n < 10
    · rw [decimal_small n h10]
      have h95 : ¬ 48 + n = 95 := by omega
      simp only [parseDigits, h95, if_false, digitVal_digit n h10]
      simp
      omega
    · rw [decimal_step n h10, parseDigits_append,
        ih (n / 10) (Nat.div_lt_self (by omega) (by omega)) (by omega)]
      have h95 : ¬ 48 + n % 10 = 95 := by omega
      have hmod : n % 10 < 10 := Nat.mod_lt _ (by omega)
      simp only [Option.some_bind, parseDigits, h95, if_false, digitVal_digit _ hmod]
      have : n / 10 * 10 + n % 10 = n := by omega
      simp [this]
      omega

theorem spaceLen_eq_zero_iff (s : Bytes) :
    spaceLen s = 0 ↔ ∀ e ∈ spaceRunes, e.isPrefixOf s = false := by
  unfold spaceLen
  constructor
  · intro h
    cases hf : spaceRunes.find? (fun e => e.isPrefixOf s) with
    | none =>
      intro e he
      exact Bool.eq_false_iff.mpr (List.find?_eq_none.mp hf e he)
    | some e =>
      rw [hf] at h
      have hmem := List.mem_of_find?_eq_some hf
      have hpos : ∀ x ∈ spaceRunes, 0 < x.length := by decide
      have := hpos e hmem
      simp only at h
      omega
  · intro h
    have : spaceRunes.find? (fun e => e.isPrefixOf s) = none := by
      rw [List.find?_eq_none]
      intro e he
      simp [h e he]
    rw [this]

theorem spaceLenRev_eq_zero_iff (s : Bytes) :
    spaceLenRev s = 0 ↔ ∀ e ∈ spaceRunes, e.reverse.isPrefixOf s = false := by
  unfold spaceLenRev
  constructor
  · intro h
    cases hf : spaceRunes.find? (fun e => e.reverse.isPrefixOf s) with
    | none =>
      intro e he
      exact Bool.eq_false_iff.mpr (List.find?_eq_none.mp hf e he)
    | some e =>
      rw [hf] at h
      have hmem := List.mem_of_find?_eq_some hf
      have hpos : ∀ x ∈ spaceRunes, 0 < x.length := by decide
      have := hpos e hmem
      simp only at h
      omega
  · intro h
    have : spaceRunes.find? (fun e => e.reverse.isPrefixOf s) = none := by
      rw [List.find?_eq_none]
      intro e he
      simp [h e he]
    rw [this]

theorem isPrefixOf_cons_ne (h d : Nat) (t rest : Bytes) (hne : h ≠ d) :
    (h :: t).isPrefixOf (d :: rest) = false := by
  simp [List.isPrefixOf, hne]

theorem spaceLen_digit (d : Nat) (rest : Bytes) (h1 : 48 ≤ d) (h2 : d ≤ 62) :
    spaceLen (d :: rest) = 0 := by
  rw [spaceLen_eq_zero_iff]
  intro e he
  have key : ∀ x ∈ spaceRunes, x ≠ [] ∧ (x.headD 0 < 48 ∨ 62 < x.headD 0) := by decide
  obtain ⟨hne, hh⟩ := key e he
  cases e with
  | nil => exact absurd rfl hne
  | cons h t => exact isPrefixOf_cons_ne h d t rest (by simp only [List.headD_cons] at hh; omega)

theorem spaceLenRev_digit (d : Nat) (rest : Bytes) (h1 : 48 ≤ d) (h2 : d ≤ 62) :
    spaceLenRev (d :: rest) = 0 := by
  rw [spaceLenRev_eq_zero_iff]
  intro e he
  have key : ∀ x ∈ spaceRunes,
      x.reverse ≠ [] ∧ (x.reverse.headD 0 < 48 ∨ 62 < x.reverse.headD 0) := by decide
  obtain ⟨hne, hh⟩ := key e he
  cases hrev : e.reverse with
  | nil => exact absurd hrev hne
  | cons h t =>
    rw [hrev] at hh
    exact isPrefixOf_cons_ne h d t rest (by simp only [List.headD_cons] at hh; omega)

theorem spaceLenRev_newline (rest : Bytes) : spaceLenRev (10 :: rest) = 1 := by
  simp [spaceLenRev, spaceRunes, List.find?, List.isPrefixOf]

theorem trimLeftAux_id (n : Nat) (s : Bytes) (h : spaceLen s = 0) : trimLeftAux n s = s := by
  cases n with
  | zero => rfl
  | succ k => simp [trimLeftAux, h]

theorem TrimLeftSpace_id (s : Bytes) (h : spaceLen s = 0) : TrimLeftSpace s = s :=
  trimLeftAux_id _ s h

theorem takeWhile_all {p : Nat → Bool} (l : Bytes) (h : ∀ b ∈ l, p b = true) : l.takeWhile p = l := by
  induction l with
  | nil => rfl
  | cons x xs ih =>
    simp [List.takeWhile, h x (List.mem_cons_self _ _),
      ih (fun b hb => h b (List.mem_cons_of_mem _ hb))]

theorem decimal_no_underscore (n : Nat) : (decimal n).contains 95 = false := by
  rw [Bool.eq_false_iff]
  intro h
  have := decimal_digits n 95 (by simpa using h)
  omega

theorem scanIntToken_decimal (n : Nat) (hn : 0 < n) : scanIntToken (decimal n) = some (decimal n) := by
  have hdig := decimal_digits n
  obtain ⟨d, rest, hd, hd1, hd2⟩ := decimal_head n hn
  unfold scanIntToken
  rw [TrimLeftSpace_id _ (by rw [hd]; exact spaceLen_digit d rest (by omega) (by omega))]
  have htw : (decimal n).takeWhile (fun c => decimalDigits.contains c || decide (c = 95))
      = decimal n := by
    apply takeWhile_all
    intro b hb
    have := hdig b hb
    have : b ∈ decimalDigits := by
      simp only [decimalDigits, List.mem_cons, List.mem_singleton]
      omega
    simp [this]
  have hdd : d ∈ decimalDigits := by
    simp only [decimalDigits, List.mem_cons, List.mem_singleton]
    omega
  rw [hd] at htw ⊢
  have e1 : d ≠ 43 := by omega
  have e2 : d ≠ 45 := by omega
  have e3 : d ≠ 48 := by omega
  simp [e1, e2, e3, hdd, htw]
  intro x hx
  left
  have := hdig x (by rw [hd]; exact List.mem_cons_of_mem _ hx)
  simp only [decimalDigits, List.mem_cons, List.mem_singleton]
  omega

theorem parseInt_decimal (n : Nat) (hn : 0 < n) (h : n < 2 ^ 63) :
    parseInt (decimal n) = some (n : Int) := by
  obtain ⟨d, rest, hd, hd1, hd2⟩ := decimal_head n hn
  have hp := parseDigits_decimal n (by omega)
  have hu := decimal_no_underscore n
  have hpu : parseUint (decimal n) = some n := by
    unfold parseUint
    rw [hd] at hp hu ⊢
    have e3 : d ≠ 48 := by omega
    simp [e3, hp, hu]
    intro h95
    have hc : (d :: rest).contains 95 = true := by
      simp only [List.contains_iff_exists_mem_beq, List.mem_cons]
      rcases h95 with h95 | h95
      · exact ⟨d, Or.inl rfl, by simp [h95]⟩
      · exact ⟨95, Or.inr h95, by simp⟩
    rw [hu] at hc
    exact absurd hc (by simp)
  unfold parseInt
  rw [hd] at hpu ⊢
  have e1 : d ≠ 43 := by omega
  have e2 : d ≠ 45 := by omega
  simp [e1, e2, hpu]
  omega

theorem Sscan_decimal (n : Nat) (h : n < 2 ^ 63) : Sscan (decimal n) = some (n : Int) := by
  by_cases h0 : n = 0
  · subst h0; decide
  · simp [Sscan, scanIntToken_decimal n (by omega), parseInt_decimal n (by omega) h]

/-! ### Splitting and trimming a metadata line -/

theorem isPrefixOf_false_of_not_prefix (a b : Bytes) (h : ¬ a <+: b) : a.isPrefixOf b = false := by
  rw [Bool.eq_false_iff]
  intro hp
  exact h (List.isPrefixOf_iff_prefix.mp hp)

theorem splitAux_no_sep (d acc : Bytes) (h : 60 ∉ d) :
    splitAux SEPARATOR d 0 acc = [acc.reverse ++ d] := by
  induction d generalizing acc with
  | nil => simp [splitAux]
  | cons c cs ih =>
    have hc : c ≠ 60 := fun e => h (by simp [e])
    have hcs : 60 ∉ cs := fun e => h (List.mem_cons_of_mem _ e)
    have hp : SEPARATOR.isPrefixOf (c :: cs) = false := by
      simp [SEPARATOR, List.isPrefixOf, Ne.symm hc]
    simp only [splitAux, hp, Bool.false_eq_true, if_false]
    rw [ih _ hcs]
    simp

theorem separator_no_border (f rest : Bytes) (hf : f ≠ []) (hno : ¬ SEPARATOR <:+: f) :
    ¬ SEPARATOR <+: f ++ (SEPARATOR ++ rest) := by
  intro hp
  by_cases hlen : SEPARATOR.length ≤ f.length
  · exact hno (List.prefix_of_prefix_length_le hp (List.prefix_append _ _) hlen).isInfix
  · obtain ⟨t, ht⟩ := hp
    have hk : f.length < 11 := by simpa [SEPARATOR] using hlen
    have hk0 : 0 < f.length := List.length_pos.mpr hf
    have h1 := congrArg (fun l => l[f.length]?) ht
    simp only at h1
    rw [List.getElem?_append_right (Nat.le_refl _), Nat.sub_self,
      List.getElem?_append_left (by simpa [SEPARATOR] using hk)] at h1
    generalize f.length = k at h1 hk hk0
    interval_cases k <;> simp [SEPARATOR] at h1

theorem splitAux_line (f d acc : Bytes) (hno : ¬ SEPARATOR <:+: f) (hd : 60 ∉ d) :
    splitAux SEPARATOR (f ++ (SEPARATOR ++ d)) 0 acc = [acc.reverse ++ f, d] := by
  induction f generalizing acc with
  | nil =>
    have hp : SEPARATOR.isPrefixOf (60 :: ([83, 69, 80, 65, 82, 65, 84, 79, 82, 62] ++ d)) = true :=
      List.isPrefixOf_iff_prefix.mpr (List.prefix_append SEPARATOR d)
    show splitAux SEPARATOR (60 :: ([83, 69, 80, 65, 82, 65, 84, 79, 82, 62] ++ d)) 0 acc = _
    simp only [splitAux, hp, if_true]
    show acc.reverse :: splitAux SEPARATOR d 0 [] = _
    rw [splitAux_no_sep d [] hd]
    simp
  | cons c cs ih =>
    have hp : SEPARATOR.isPrefixOf (c :: cs ++ (SEPARATOR ++ d)) = false :=
      isPrefixOf_false_of_not_prefix _ _ (separator_no_border (c :: cs) d (by simp) hno)
    have hcs : ¬ SEPARATOR <:+: cs := fun h => hno (h.trans (List.suffix_cons c cs).isInfix)
    rw [List.cons_append] at hp ⊢
    simp only [splitAux, hp, Bool.false_eq_true, if_false]
    rw [ih _ hcs]
    simp

theorem Split_line (f d : Bytes) (hno : ¬ SEPARATOR <:+: f) (hd : 60 ∉ d) :
    Split (f ++ SEPARATOR ++ d) SEPARATOR = [f, d] := by
  rw [Split, List.append_assoc, splitAux_line f d [] hno hd]
  simp

theorem spaceLen_append_sep (f rest : Bytes) (h : spaceLen f = 0) :
    spaceLen (f ++ 60 :: rest) = 0 := by
  rw [spaceLen_eq_zero_iff] at h ⊢
  intro e he
  apply isPrefixOf_false_of_not_prefix
  intro hp
  have hef : ¬ e <+: f := by
    intro hpf
    have := h e he
    rw [List.isPrefixOf_iff_prefix.mpr hpf] at this
    exact absurd this (by simp)
  have hlen : f.length < e.length := by
    by_contra hle
    exact hef (List.prefix_of_prefix_length_le hp (List.prefix_append _ _) (by omega))
  obtain ⟨t, ht⟩ := hp
  have h1 := congrArg (fun l => l[f.length]?) ht
  simp only at h1
  rw [List.getElem?_append_right (Nat.le_refl _), Nat.sub_self,
    List.getElem?_append_left hlen] at h1
  have hmem : 60 ∈ e := by
    rw [List.mem_iff_getElem?]
    exact ⟨f.length, by simpa using h1⟩
  have key : ∀ x ∈ spaceRunes, 60 ∉ x := by decide
  exact key e he hmem

theorem TrimSpace_line (f : Bytes) (n : Nat) (h : spaceLen f = 0) :
    TrimSpace (metaLine f n) = f ++ SEPARATOR ++ decimal n := by
  obtain ⟨body, dl, hdec, hd1, hd2⟩ := decimal_getLast n
  have hleft : TrimLeftSpace (metaLine f n) = metaLine f n := by
    apply TrimLeftSpace_id
    have e : metaLine f n
        = f ++ 60 :: ([83, 69, 80, 65, 82, 65, 84, 79, 82, 62] ++ decimal n ++ [10]) := by
      simp [metaLine, SEPARATOR]
    rw [e]
    exact spaceLen_append_sep f _ h
  rw [TrimSpace, hleft, TrimRightSpace]
  obtain ⟨X, hX⟩ : ∃ X : Bytes, X = body.reverse ++ (f ++ SEPARATOR).reverse := ⟨_, rfl⟩
  have hrev : (metaLine f n).reverse = 10 :: dl :: X := by
    simp [metaLine, hdec, hX]
  have hlen : (metaLine f n).length = X.length + 1 + 1 := by
    rw [← List.length_reverse, hrev]
    rfl
  have hz := spaceLenRev_digit dl X hd1 (by omega)
  have hfinal : (dl :: X).reverse = f ++ SEPARATOR ++ decimal n := by
    simp [hX, hdec]
  rw [hrev, hlen]
  have step1 : trimRightAux (X.length + 1 + 1) (10 :: dl :: X) = trimRightAux (X.length + 1) (dl :: X) := by
    rw [trimRightAux, spaceLenRev_newline]
    simp
  have step2 : trimRightAux (X.length + 1) (dl :: X) = dl :: X := by
    rw [trimRightAux, hz]
    simp
  rw [step1, step2, hfinal]

/-- Counterexample to C4: the file name ` a.txt` (a leading space) holds neither
the separator nor a newline, and the parse of its metadata line returns
`a.txt`. -/
theorem parseMeta_roundtrip_counterexample :
    ¬ SEPARATOR <:+: asc " a.txt" ∧ 10 ∉ asc " a.txt" ∧
    parseMeta (metaLine (asc " a.txt") 5) = some (asc "a.txt", 5) ∧
    parseMeta (metaLine (asc " a.txt") 5) ≠ some (asc " a.txt", 5) := by
  decide

/-- Claim C4, amended: for every file name that does not contain the separator
and does not begin with white space, and every size an `int64` holds, the
parse of the receiver applied to the line of the sender returns that file
name and that size. -/
theorem parseMeta_roundtrip (filename : Bytes) (filesize : Nat)
    (hsep : ¬ SEPARATOR <:+: filename) (hspace : spaceLen filename = 0)
    (hsize : filesize < 2 ^ 63) :
    parseMeta (metaLine filename filesize) = some (filename, (filesize : Int)) := by
  have hd : 60 ∉ decimal filesize := fun hm => by
    have := decimal_digits filesize 60 hm
    omega
  rw [parseMeta, TrimSpace_line filename filesize hspace, Split_line filename _ hsep hd]
  simp [Sscan_decimal filesize hsize]

/-- Witness for C4 (amended): the line of `a.txt` with size 5. -/
theorem parseMeta_roundtrip_witness :
    ¬ SEPARATOR <:+: asc "a.txt" ∧ spaceLen (asc "a.txt") = 0 ∧ 5 < 2 ^ 63 ∧
    parseMeta (metaLine (asc "a.txt") 5) = some (asc "a.txt", ((5 : Nat) : Int)) :=
  ⟨by decide, by decide, by decide,
    parseMeta_roundtrip (asc "a.txt") 5 (by decide) (by decide) (by decide)⟩

/-! ### Paths -/

theorem splitSlashAux_append (a b acc : Bytes) :
    splitSlashAux (a ++ 47 :: b) acc = splitSlashAux a acc ++ splitSlashAux b [] := by
  induction a generalizing acc with
  | nil => simp [splitSlashAux]
  | cons c cs ih =>
    by_cases hc : c = 47
    · simp [splitSlashAux, hc, ih]
    · simp [splitSlashAux, hc, ih]

theorem splitSlash_append (a b : Bytes) :
    splitSlash (a ++ 47 :: b) = splitSlash a ++ splitSlash b :=
  splitSlashAux_append a b []

theorem splitSlashAux_no_slash (p acc : Bytes) (hacc : 47 ∉ acc) :
    ∀ e ∈ splitSlashAux p acc, 47 ∉ e := by
  induction p generalizing acc with
  | nil => simpa [splitSlashAux] using hacc
  | cons c cs ih =>
    by_cases hc : c = 47
    · intro e he
      simp only [splitSlashAux, hc, if_true, List.mem_cons] at he
      rcases he with he | he
      · subst he; simpa using hacc
      · exact ih [] (by simp) e he
    · intro e he
      simp only [splitSlashAux, hc, if_false] at he
      exact ih (c :: acc) (by simp [hacc, Ne.symm hc]) e he

theorem splitSlash_no_slash (p : Bytes) : ∀ e ∈ splitSlash p, 47 ∉ e :=
  splitSlashAux_no_slash p [] (by simp)

theorem splitSlashAux_of_no_slash (e acc : Bytes) (h : 47 ∉ e) :
    splitSlashAux e acc = [acc.reverse ++ e] := by
  induction e generalizing acc with
  | nil => simp [splitSlashAux]
  | cons c cs ih =>
    have hc : c ≠ 47 := fun x => h (by simp [x])
    simp only [splitSlashAux, hc, if_false]
    rw [ih _ (fun x => h (List.mem_cons_of_mem _ x))]
    simp

theorem splitSlash_joinSlash (out : List Bytes) (hne : out ≠ []) (h : ∀ e ∈ out, 47 ∉ e) :
    splitSlash (joinSlash out) = out := by
  induction out with
  | nil => exact absurd rfl hne
  | cons e es ih =>
    cases es with
    | nil =>
      simp only [joinSlash, splitSlash]
      rw [splitSlashAux_of_no_slash e [] (h e (List.mem_cons_self _ _))]
      simp
    | cons e2 es2 =>
      have h1 := h e (List.mem_cons_self _ _)
      have h2 : ∀ x ∈ e2 :: es2, 47 ∉ x := fun x hx => h x (List.mem_cons_of_mem _ hx)
      simp only [joinSlash]
      rw [splitSlash_append, ih (by simp) h2, splitSlash, splitSlashAux_of_no_slash e [] h1]
      simp

theorem filter_proper (out : List Bytes) (h : ∀ e ∈ out, Proper e) :
    out.filter (fun e => decide (e ≠ [] ∧ e ≠ [46])) = out := by
  rw [List.filter_eq_self]
  intro e he
  obtain ⟨h1, _, h3⟩ := h e he
  simp [h1, h3]

theorem pathElems_renderPath (rooted : Bool) (out : List Bytes) (h : ∀ e ∈ out, Proper e) :
    pathElems (renderPath rooted out) = out := by
  have hslash : ∀ e ∈ out, 47 ∉ e := fun e he => (h e he).2.1
  by_cases hout : out = []
  · subst hout
    cases rooted <;> simp [pathElems, renderPath, joinSlash, splitSlash, splitSlashAux]
  · cases rooted with
    | true =>
      simp only [renderPath, if_true, pathElems]
      rw [show (47 :: joinSlash out) = [] ++ 47 :: joinSlash out from rfl, splitSlash_append,
        splitSlash_joinSlash out hout hslash]
      simp only [splitSlash, splitSlashAux, List.reverse_nil, List.singleton_append]
      rw [List.filter_cons_of_neg (by simp), filter_proper out h]
    | false =>
      simp only [renderPath, Bool.false_eq_true, if_false, hout, pathElems]
      rw [splitSlash_joinSlash out hout hslash, filter_proper out h]

theorem joinSlash_head (out : List Bytes) (h : ∀ e ∈ out, Proper e) (hne : out ≠ []) :
    (joinSlash out).head? ≠ some 47 := by
  cases out with
  | nil => exact absurd rfl hne
  | cons e es =>
    obtain ⟨h1, h2, _⟩ := h e (List.mem_cons_self _ _)
    cases e with
    | nil => exact absurd rfl h1
    | cons c cs =>
      have hc : c ≠ 47 := fun x => h2 (by simp [x])
      cases es <;> simp [joinSlash, hc]

theorem isRooted_renderPath (rooted : Bool) (out : List Bytes) (h : ∀ e ∈ out, Proper e) :
    isRooted (renderPath rooted out) = rooted := by
  cases rooted with
  | true => simp [renderPath, isRooted]
  | false =>
    by_cases hout : out = []
    · simp [renderPath, isRooted, hout]
    · simp only [renderPath, Bool.false_eq_true, if_false, hout, isRooted]
      simpa using joinSlash_head out h hout

theorem cleanStep_proper (rooted : Bool) (st : CleanState) (e : Bytes) (he : 47 ∉ e)
    (h : ∀ x ∈ st.out, Proper x) : ∀ x ∈ (cleanStep rooted st e).out, Proper x := by
  unfold cleanStep
  split
  · exact h
  · rename_i hreal
    have hp : Proper e := ⟨fun x => hreal (Or.inl x), he, fun x => hreal (Or.inr x)⟩
    split
    · split
      · intro x hx
        exact h x (List.mem_of_mem_dropLast hx)
      · split
        · intro x hx
          rcases List.mem_append.mp hx with hx | hx
          · exact h x hx
          · simp only [List.mem_singleton] at hx
            subst hx
            exact ⟨by decide, by decide, by decide⟩
        · exact h
    · intro x hx
      rcases List.mem_append.mp hx with hx | hx
      · exact h x hx
      · simp only [List.mem_singleton] at hx
        subst hx
        exact hp

theorem foldl_cleanStep_proper (rooted : Bool) (es : List Bytes) (st : CleanState)
    (hes : ∀ e ∈ es, 47 ∉ e) (h : ∀ x ∈ st.out, Proper x) :
    ∀ x ∈ (es.foldl (cleanStep rooted) st).out, Proper x := by
  induction es generalizing st with
  | nil => exact h
  | cons e rest ih =>
    exact ih _ (fun x hx => hes x (List.mem_cons_of_mem _ hx))
      (cleanStep_proper rooted st e (hes e (List.mem_cons_self _ _)) h)

theorem foldl_cleanStep_plain (rooted : Bool) (es : List Bytes) (st : CleanState)
    (hes : dotdotElem ∉ es) :
    (es.foldl (cleanStep rooted) st).out
      = st.out ++ es.filter (fun e => decide (e ≠ [] ∧ e ≠ [46])) := by
  induction es generalizing st with
  | nil => simp
  | cons e rest ih =>
    have he : e ≠ dotdotElem := fun x => hes (by simp [x])
    have hrest : dotdotElem ∉ rest := fun x => hes (List.mem_cons_of_mem _ x)
    rw [List.foldl_cons, ih _ hrest]
    by_cases hskip : e = [] ∨ e = [46]
    · have : ¬ (e ≠ [] ∧ e ≠ [46]) := by tauto
      simp [cleanStep, hskip, this]
    · have : e ≠ [] ∧ e ≠ [46] := by tauto
      simp [cleanStep, hskip, he, this]

theorem clean_join (saveDir filename : Bytes) (hdir : saveDir ≠ [])
    (hname : dotdotElem ∉ splitSlash filename) :
    pathElems (Join [saveDir, filename]) = pathElems (Clean saveDir) ++ pathElems filename ∧
    isRooted (Join [saveDir, filename]) = isRooted (Clean saveDir) ∧
    (∀ e ∈ pathElems (Clean saveDir), Proper e) := by
  have hjoin : Join [saveDir, filename] = Clean (saveDir ++ 47 :: filename) := by
    simp [Join, List.dropWhile, hdir, joinSlash]
  have hroot : isRooted (saveDir ++ 47 :: filename) = isRooted saveDir := by
    cases saveDir with
    | nil => exact absurd rfl hdir
    | cons c cs => rfl
  have hne : saveDir ++ 47 :: filename ≠ [] := by simp
  have h1 : ∀ x ∈ ((splitSlash saveDir).foldl (cleanStep (isRooted saveDir)) ⟨[], 0⟩).out,
      Proper x :=
    foldl_cleanStep_proper _ _ _ (splitSlash_no_slash saveDir) (by simp)
  have h2 : ∀ x ∈ ((splitSlash saveDir).foldl (cleanStep (isRooted saveDir)) ⟨[], 0⟩).out
      ++ pathElems filename, Proper x := by
    intro x hx
    rcases List.mem_append.mp hx with hx | hx
    · exact h1 x hx
    · have hm := List.mem_filter.mp hx
      have hd := hm.2
      simp only [decide_eq_true_eq] at hd
      exact ⟨hd.1, splitSlash_no_slash filename x hm.1, hd.2⟩
  have hc1 : Clean saveDir = renderPath (isRooted saveDir)
      ((splitSlash saveDir).foldl (cleanStep (isRooted saveDir)) ⟨[], 0⟩).out := by
    simp [Clean, hdir]
  have hc2 : Clean (saveDir ++ 47 :: filename) = renderPath (isRooted saveDir)
      (((splitSlash saveDir).foldl (cleanStep (isRooted saveDir)) ⟨[], 0⟩).out
        ++ pathElems filename) := by
    rw [Clean, if_neg hne, hroot, splitSlash_append, List.foldl_append,
      foldl_cleanStep_plain _ _ _ hname]
    rfl
  rw [hjoin, hc2, hc1, pathElems_renderPath _ _ h2, pathElems_renderPath _ _ h1,
    isRooted_renderPath _ _ h2, isRooted_renderPath _ _ h1]
  exact ⟨rfl, rfl, h1⟩

/-- File names without a `..` element stay inside: for a non-empty save
directory and every such name, the path `filepath.Join(saveDir, filename)`
lies under the save directory, its elements being those of the cleaned save
directory followed by the non-empty, non-`.` elements of the file name. -/
theorem savePath_under_saveDir (saveDir filename : Bytes) (hdir : saveDir ≠ [])
    (hname : dotdotElem ∉ splitSlash filename) :
    liesUnder saveDir (Join [saveDir, filename]) = true ∧
    pathElems (Join [saveDir, filename]) = pathElems (Clean saveDir) ++ pathElems filename := by
  obtain ⟨h1, h2, _⟩ := clean_join saveDir filename hdir hname
  refine ⟨?_, h1⟩
  have hno : dotdotElem ∉ pathElems filename := fun hm => hname (List.mem_filter.mp hm).1
  simp [liesUnder, h1, h2, hno]

/-- An instance of `savePath_under_saveDir`: a file name with a directory part. -/
theorem savePath_under_saveDir_witness :
    asc "/save" ≠ [] ∧ dotdotElem ∉ splitSlash (asc "sub/a.txt") ∧
    liesUnder (asc "/save") (Join [asc "/save", asc "sub/a.txt"]) = true ∧
    pathElems (Join [asc "/save", asc "sub/a.txt"])
      = pathElems (Clean (asc "/save")) ++ pathElems (asc "sub/a.txt") :=
  ⟨by decide, by decide,
    savePath_under_saveDir (asc "/save") (asc "sub/a.txt") (by decide) (by decide)⟩

/-! ### Line reader -/

theorem ReadString_hit (delim : Nat) (sched : List Nat) (data buf full line rest : Bytes)
    (h : cutLine delim buf = some (line, rest)) :
    ReadString delim sched data buf full = ⟨full ++ line, none, rest, data, sched⟩ := by
  rw [ReadString, h]

theorem ReadString_eof (delim : Nat) (sched : List Nat) (buf full : Bytes)
    (h : cutLine delim buf = none) :
    (ReadString delim sched [] buf full).err = some IOError.EOF ∧
    (ReadString delim sched [] buf full).data = [] := by
  rw [ReadString, h]
  simp

theorem ReadString_fill (delim k : Nat) (sched : List Nat) (data buf full : Bytes)
    (h : cutLine delim buf = none) (hlen : buf.length < bufioSize) (hdata : data ≠ []) :
    ReadString delim (k :: sched) data buf full =
      ReadString delim sched (data.drop (readLen k (bufioSize - buf.length) data.length))
        (buf ++ data.take (readLen k (bufioSize - buf.length) data.length)) full := by
  rw [ReadString, h]
  have : ¬ bufioSize ≤ buf.length := by omega
  simp only [this, if_false, hdata]

theorem cutLine_length (delim : Nat) (buf line rest : Bytes)
    (h : cutLine delim buf = some (line, rest)) :
    line.length + rest.length = buf.length ∧ 0 < line.length := by
  induction buf generalizing line rest with
  | nil => simp [cutLine] at h
  | cons c cs ih =>
    rw [cutLine] at h
    split at h
    · simp only [Option.some.injEq, Prod.mk.injEq] at h
      obtain ⟨rfl, rfl⟩ := h
      simp only [List.length_cons, List.length_nil]
      omega
    · cases hc : cutLine delim cs with
      | none => simp [hc] at h
      | some lr =>
        obtain ⟨l, r⟩ := lr
        rw [hc] at h
        simp only [Option.some.injEq, Prod.mk.injEq] at h
        obtain ⟨rfl, rfl⟩ := h
        have := ih l r hc
        simp only [List.length_cons]
        omega

theorem cutLine_append (delim : Nat) (body rest : Bytes) (h : delim ∉ body) :
    cutLine delim (body ++ delim :: rest) = some (body ++ [delim], rest) := by
  induction body with
  | nil => simp [cutLine]
  | cons c cs ih =>
    have hc : c ≠ delim := fun e => h (by simp [e])
    have hcs : delim ∉ cs := fun e => h (List.mem_cons_of_mem _ e)
    simp [cutLine, hc, ih hcs]

theorem readLen_le (k cap avail : Nat) (hc : 0 < cap) (ha : 0 < avail) :
    1 ≤ readLen k cap avail ∧ readLen k cap avail ≤ cap ∧ readLen k cap avail ≤ avail := by
  unfold readLen
  omega

theorem ReadString_measure (delim : Nat) (sched : List Nat) :
    ∀ (data buf full : Bytes),
      (ReadString delim sched data buf full).line.length
          + (ReadString delim sched data buf full).buf.length
          + (ReadString delim sched data buf full).data.length
        = full.length + buf.length + data.length ∧
      ((ReadString delim sched data buf full).err = none →
        full.length < (ReadString delim sched data buf full).line.length) ∧
      (ReadString delim sched data buf full).data.length ≤ data.length := by
  induction sched with
  | nil =>
    intro data buf full
    rw [ReadString]
    cases hc : cutLine delim buf with
    | some lr =>
      obtain ⟨l, r⟩ := lr
      have := cutLine_length delim buf l r hc
      simp only [List.length_append]
      refine ⟨by omega, fun _ => by omega, le_refl _⟩
    | none =>
      simp only
      by_cases hd : data = []
      · simp only [hd, if_true]
        split <;> simp
      · simp only [hd, if_false]
        split <;> simp
  | cons k rest ih =>
    intro data buf full
    rw [ReadString]
    cases hc : cutLine delim buf with
    | some lr =>
      obtain ⟨l, r⟩ := lr
      have := cutLine_length delim buf l r hc
      simp only [List.length_append]
      refine ⟨by omega, fun _ => by omega, le_refl _⟩
    | none =>
      simp only
      by_cases hd : data = []
      · simp only [hd, if_true]
        split <;> simp
      · simp only [hd, if_false]
        have hpos : 0 < data.length := List.length_pos.mpr hd
        by_cases hfull : bufioSize ≤ buf.length
        · simp only [hfull, if_true]
          obtain ⟨h1, h2, h3⟩ := ih (data.drop (readLen k (bufioSize - ([] : Bytes).length) data.length))
            ([] ++ data.take (readLen k (bufioSize - ([] : Bytes).length) data.length)) (full ++ buf)
          have hr := readLen_le k (bufioSize - ([] : Bytes).length) data.length (by decide) hpos
          simp only [List.length_append, List.length_take, List.length_drop, List.length_nil] at h1 h2 h3 ⊢
          refine ⟨by omega, fun e => by have := h2 e; omega, by omega⟩
        · simp only [hfull, if_false]
          obtain ⟨h1, h2, h3⟩ := ih (data.drop (readLen k (bufioSize - buf.length) data.length))
            (buf ++ data.take (readLen k (bufioSize - buf.length) data.length)) full
          have hr := readLen_le k (bufioSize - buf.length) data.length (by omega) hpos
          simp only [List.length_append, List.length_take, List.length_drop] at h1 h2 h3 ⊢
          refine ⟨by omega, fun e => by have := h2 e; omega, by omega⟩

/-! ### Payload loop -/

theorem payloadLoop_done (filesize : Int) (out : Option Bytes) (sched : List Nat) (data : Bytes)
    (dec : Option StreamReader) (files : Files) (written : Nat) (h : filesize ≤ written) :
    payloadLoop filesize out sched data dec files written
      = ⟨dec, data, sched, files, written, false⟩ := by
  have : ¬ ((written : Int) < filesize) := by omega
  rw [payloadLoop.eq_def]
  simp [this]

theorem payloadLoop_no_data (filesize : Int) (out : Option Bytes) (sched : List Nat)
    (dec : Option StreamReader) (files : Files) (written : Nat) :
    (payloadLoop filesize out sched [] dec files written).files = files ∧
    (payloadLoop filesize out sched [] dec files written).data = [] ∧
    (payloadLoop filesize out sched [] dec files written).dec = dec := by
  rw [payloadLoop.eq_def]
  cases dec <;> simp only [if_true] <;> split <;> simp

theorem payloadLoop_data_le (filesize : Int) (out : Option Bytes) (sched : List Nat) :
    ∀ (data : Bytes) (dec : Option StreamReader) (files : Files) (written : Nat),
      (payloadLoop filesize out sched data dec files written).data.length ≤ data.length := by
  induction sched with
  | nil =>
    intro data dec files written
    rw [payloadLoop.eq_def]
    cases dec <;> simp only <;> split <;> (try split) <;> simp
  | cons k rest ih =>
    intro data dec files written
    rw [payloadLoop.eq_def]
    cases dec with
    | none => simp only; split <;> simp
    | some r =>
      simp only
      split
      · split
        · simp
        · exact le_trans (ih _ _ _ _) (by simp)
      · simp

/-! ### One round and the whole loop of the receiver -/

theorem handleStep_line (canOpen : Bytes → Bool) (saveDir : Bytes) (s : Recv)
    (line rest filename : Bytes) (filesize : Int)
    (hcut : cutLine 10 s.buf = some (line, rest))
    (hparse : parseMeta line = some (filename, filesize)) :
    handleStep canOpen saveDir s =
      { data := (payloadLoop filesize (OpenFile canOpen s.files (Join [saveDir, filename])).1
            s.sched s.data s.dec (OpenFile canOpen s.files (Join [saveDir, filename])).2 0).data,
        sched := (payloadLoop filesize (OpenFile canOpen s.files (Join [saveDir, filename])).1
            s.sched s.data s.dec (OpenFile canOpen s.files (Join [saveDir, filename])).2 0).sched,
        buf := rest,
        dec := (payloadLoop filesize (OpenFile canOpen s.files (Join [saveDir, filename])).1
            s.sched s.data s.dec (OpenFile canOpen s.files (Join [saveDir, filename])).2 0).dec,
        files := (payloadLoop filesize (OpenFile canOpen s.files (Join [saveDir, filename])).1
            s.sched s.data s.dec (OpenFile canOpen s.files (Join [saveDir, filename])).2 0).files,
        opened := s.opened ++ [Join [saveDir, filename]],
        status := if (payloadLoop filesize (OpenFile canOpen s.files (Join [saveDir, filename])).1
            s.sched s.data s.dec (OpenFile canOpen s.files (Join [saveDir, filename])).2 0).panicked
          then Status.panicked else Status.running } := by
  unfold handleStep
  rw [ReadString_hit 10 s.sched s.data s.buf [] line rest hcut]
  simp only [List.nil_append, hparse]

theorem handleStep_skip (canOpen : Bytes → Bool) (saveDir : Bytes) (s : Recv)
    (line rest : Bytes) (hcut : cutLine 10 s.buf = some (line, rest))
    (hparse : parseMeta line = none) :
    handleStep canOpen saveDir s = { s with buf := rest } := by
  unfold handleStep
  rw [ReadString_hit 10 s.sched s.data s.buf [] line rest hcut]
  simp only [List.nil_append, hparse]

theorem handleStep_measure (canOpen : Bytes → Bool) (saveDir : Bytes) (s : Recv)
    (h : (handleStep canOpen saveDir s).status = Status.running) :
    (handleStep canOpen saveDir s).buf.length + (handleStep canOpen saveDir s).data.length
      < s.buf.length + s.data.length := by
  obtain ⟨h1, h2, h3⟩ := ReadString_measure 10 s.sched s.data s.buf []
  unfold handleStep at h ⊢
  cases herr : (ReadString 10 s.sched s.data s.buf []).err with
  | some e =>
    simp only [herr] at h
    split at h <;> simp at h
  | none =>
    have hl := h2 herr
    simp only [List.length_nil] at h1 hl
    simp only [herr] at h ⊢
    cases hp : parseMeta (ReadString 10 s.sched s.data s.buf []).line with
    | none =>
      simp only [hp]
      omega
    | some fs =>
      obtain ⟨filename, filesize⟩ := fs
      simp only [hp]
      have := payloadLoop_data_le filesize
        (OpenFile canOpen s.files (Join [saveDir, filename])).1
        (ReadString 10 s.sched s.data s.buf []).sched (ReadString 10 s.sched s.data s.buf []).data
        s.dec (OpenFile canOpen s.files (Join [saveDir, filename])).2 0
      omega

theorem handleLoop_ends (canOpen : Bytes → Bool) (saveDir : Bytes) (n : Nat) :
    ∀ s : Recv, s.buf.length + s.data.length < n →
      (handleLoop canOpen saveDir n s).status ≠ Status.running := by
  induction n with
  | zero => intro s h; omega
  | succ k ih =>
    intro s h
    rw [handleLoop]
    split
    · rename_i hrun
      exact ih _ (by have := handleStep_measure canOpen saveDir s hrun; omega)
    · rename_i hrun
      exact hrun

theorem handleStep_no_data (canOpen : Bytes → Bool) (saveDir : Bytes) (s : Recv)
    (hdata : s.data = []) :
    (handleStep canOpen saveDir s).data = [] ∧
    ∀ p, (handleStep canOpen saveDir s).files p = s.files p ∨
      (s.files p = none ∧ (handleStep canOpen saveDir s).files p = some []) := by
  obtain ⟨_, _, h3⟩ := ReadString_measure 10 s.sched s.data s.buf []
  have h0 : s.data.length = 0 := by rw [hdata]; rfl
  have hld : (ReadString 10 s.sched s.data s.buf []).data = [] :=
    List.length_eq_zero.mp (by omega)
  unfold handleStep
  cases herr : (ReadString 10 s.sched s.data s.buf []).err with
  | some e =>
    simp only [herr]
    exact ⟨hld, fun p => Or.inl trivial⟩
  | none =>
    simp only [herr]
    cases hp : parseMeta (ReadString 10 s.sched s.data s.buf []).line with
    | none =>
      simp only [hp]
      exact ⟨hld, fun p => Or.inl trivial⟩
    | some fs =>
      obtain ⟨filename, filesize⟩ := fs
      simp only [hp, hld]
      obtain ⟨hf, hd, _⟩ := payloadLoop_no_data filesize
        (OpenFile canOpen s.files (Join [saveDir, filename])).1
        (ReadString 10 s.sched s.data s.buf []).sched s.dec
        (OpenFile canOpen s.files (Join [saveDir, filename])).2 0
      refine ⟨hd, ?_⟩
      intro p
      rw [hf]
      unfold OpenFile
      split
      · simp only
        split
        · rename_i heq
          rw [← heq]
          cases hs : s.files p with
          | none => exact Or.inr ⟨rfl, rfl⟩
          | some content => exact Or.inl rfl
        · exact Or.inl rfl
      · exact Or.inl rfl

theorem handleLoop_no_data (canOpen : Bytes → Bool) (saveDir : Bytes) (n : Nat) :
    ∀ s : Recv, s.data = [] → ∀ p, (handleLoop canOpen saveDir n s).files p = s.files p ∨
      (s.files p = none ∧ (handleLoop canOpen saveDir n s).files p = some []) := by
  induction n with
  | zero => intro s _ p; exact Or.inl rfl
  | succ k ih =>
    intro s hdata p
    obtain ⟨h1, h2⟩ := handleStep_no_data canOpen saveDir s hdata
    rw [handleLoop]
    split
    · rcases ih _ h1 p with h | ⟨h, h'⟩
      · rw [h]
        exact h2 p
      · rcases h2 p with e | ⟨e, _⟩
        · exact Or.inr ⟨by rw [← e]; exact h, h'⟩
        · exact Or.inr ⟨e, h'⟩
    · exact h2 p

theorem handleStep_read (canOpen : Bytes → Bool) (saveDir : Bytes) (s : Recv)
    (line buf1 data1 filename : Bytes) (sched1 : List Nat) (filesize : Int)
    (hread : ReadString 10 s.sched s.data s.buf [] = ⟨line, none, buf1, data1, sched1⟩)
    (hparse : parseMeta line = some (filename, filesize)) :
    (handleStep canOpen saveDir s).data = (payloadLoop filesize
        (OpenFile canOpen s.files (Join [saveDir, filename])).1 sched1 data1 s.dec
        (OpenFile canOpen s.files (Join [saveDir, filename])).2 0).data ∧
    (handleStep canOpen saveDir s).files = (payloadLoop filesize
        (OpenFile canOpen s.files (Join [saveDir, filename])).1 sched1 data1 s.dec
        (OpenFile canOpen s.files (Join [saveDir, filename])).2 0).files ∧
    (handleStep canOpen saveDir s).opened = s.opened ++ [Join [saveDir, filename]] := by
  unfold handleStep
  rw [hread]
  simp only [hparse, and_self]

theorem greedy_read (k : Nat) (sched : List Nat) (body rest : Bytes) (hbody : 10 ∉ body)
    (hk : (body ++ 10 :: rest).length ≤ k) (hcap : (body ++ 10 :: rest).length ≤ bufioSize) :
    ReadString 10 (k :: sched) (body ++ 10 :: rest) [] []
      = ⟨body ++ [10], none, rest, [], sched⟩ := by
  have hlen : readLen k (bufioSize - ([] : Bytes).length) (body ++ 10 :: rest).length
      = (body ++ 10 :: rest).length := by
    unfold readLen
    simp only [List.length_nil, Nat.sub_zero]
    have : 0 < (body ++ 10 :: rest).length := by simp
    omega
  rw [ReadString_fill 10 k sched _ [] [] rfl (by decide) (by simp), hlen, List.drop_length,
    List.take_length, List.nil_append,
    ReadString_hit 10 sched [] _ [] _ _ (cutLine_append 10 body rest hbody)]
  rfl

theorem encryptStream_derived (c : Crypto) (p : Bytes) :
    encryptStream c (deriveKey c p)
      = .ok ⟨⟨c.aesBlock (deriveKey c p), List.replicate aesBlockSize 0, 0⟩⟩ := by
  simp [encryptStream, aesNewCipher, deriveKey, c.sha256_length]

theorem decryptStream_derived (c : Crypto) (p : Bytes) :
    decryptStream c (deriveKey c p)
      = .ok ⟨⟨c.aesBlock (deriveKey c p), List.replicate aesBlockSize 0, 0⟩⟩ := by
  simp [decryptStream, aesNewCipher, deriveKey, c.sha256_length]

theorem twoFiles_wire (c : Crypto) :
    (wire (sendFiles c twoFiles onePeer [asc "/tmp/a.txt", asc "/tmp/b.txt"] (asc "host1")).1).take 18
      = asc "a.txt<SEPARATOR>2" ++ [10] ∧
    (wire (sendFiles c twoFiles onePeer [asc "/tmp/a.txt", asc "/tmp/b.txt"] (asc "host1")).1).length
      = 41 := by
  simp only [sendFiles]
  rw [encryptStream_derived]
  exact ⟨rfl, rfl⟩

/-- The loop of `handleConnection` always comes to an end: for every connection,
whatever bytes it holds and whatever sizes its reads have, the function
leaves the loop, by the end of the stream, by a failed read or by a panic. -/
theorem handleConnection_ends (c : Crypto) (canOpen : Bytes → Bool) (data : Bytes)
    (sched : List Nat) (saveDir : Bytes) (files : Files) :
    (handleConnection c canOpen data sched saveDir files).status ≠ Status.running :=
  handleLoop_ends canOpen saveDir (data.length + 1) (initRecv c data sched files)
    (by simp [initRecv])

/-- Claim C1 at a failing input: `a.txt` holding `hi` and `b.txt` holding `bye` are
sent over one connection, and the first read of the receiver returns the
whole stream of 41 bytes. The line reader then holds the payloads too, the
decrypting reader finds the connection at its end, and `a.txt` is saved
empty; no file is saved with any content at all. -/
theorem two_files_single_read (c : Crypto) :
    (handleConnection c (fun _ => true)
      (wire (sendFiles c twoFiles onePeer [asc "/tmp/a.txt", asc "/tmp/b.txt"] (asc "host1")).1)
      [4096] (asc "/save") (fun _ => none)).files (asc "/save/a.txt") = some [] ∧
    ∀ p, (handleConnection c (fun _ => true)
      (wire (sendFiles c twoFiles onePeer [asc "/tmp/a.txt", asc "/tmp/b.txt"] (asc "host1")).1)
      [4096] (asc "/save") (fun _ => none)).files p = none ∨
      (handleConnection c (fun _ => true)
      (wire (sendFiles c twoFiles onePeer [asc "/tmp/a.txt", asc "/tmp/b.txt"] (asc "host1")).1)
      [4096] (asc "/save") (fun _ => none)).files p = some [] := by
  obtain ⟨h18, h41⟩ := twoFiles_wire c
  generalize wire (sendFiles c twoFiles onePeer [asc "/tmp/a.txt", asc "/tmp/b.txt"]
    (asc "host1")).1 = W at h18 h41 ⊢
  obtain ⟨rest, hrest⟩ : ∃ rest, W = asc "a.txt<SEPARATOR>2" ++ 10 :: rest := by
    refine ⟨W.drop 18, ?_⟩
    conv_lhs => rw [← List.take_append_drop 18 W, h18]
    simp
  subst hrest
  have hread : ReadString 10 [4096] (asc "a.txt<SEPARATOR>2" ++ 10 :: rest) [] []
      = ⟨asc "a.txt<SEPARATOR>2" ++ [10], none, rest, [], []⟩ :=
    greedy_read 4096 [] _ rest (by decide) (by rw [h41]; decide) (by rw [h41]; decide)
  have hparse : parseMeta (asc "a.txt<SEPARATOR>2" ++ [10]) = some (asc "a.txt", 2) := by decide
  have hjoin : Join [asc "/save", asc "a.txt"] = asc "/save/a.txt" := by decide
  obtain ⟨hd, hf, _⟩ := handleStep_read (fun _ => true) (asc "/save")
    (initRecv c (asc "a.txt<SEPARATOR>2" ++ 10 :: rest) [4096] (fun _ => none))
    _ _ _ _ _ _ hread hparse
  obtain ⟨pf, pd, _⟩ := payloadLoop_no_data 2
    (OpenFile (fun _ => true)
      (initRecv c (asc "a.txt<SEPARATOR>2" ++ 10 :: rest) [4096] (fun _ => none)).files
      (Join [asc "/save", asc "a.txt"])).1 []
    (initRecv c (asc "a.txt<SEPARATOR>2" ++ 10 :: rest) [4096] (fun _ => none)).dec
    (OpenFile (fun _ => true)
      (initRecv c (asc "a.txt<SEPARATOR>2" ++ 10 :: rest) [4096] (fun _ => none)).files
      (Join [asc "/save", asc "a.txt"])).2 0
  have hfile : ∀ p, (handleStep (fun _ => true) (asc "/save")
      (initRecv c (asc "a.txt<SEPARATOR>2" ++ 10 :: rest) [4096] (fun _ => none))).files p
        = if p = asc "/save/a.txt" then some [] else none := by
    intro p
    rw [hf, pf, hjoin]
    simp [OpenFile, initRecv]
  have hdata : (handleStep (fun _ => true) (asc "/save")
      (initRecv c (asc "a.txt<SEPARATOR>2" ++ 10 :: rest) [4096] (fun _ => none))).data = [] := by
    rw [hd]
    exact pd
  have hall : ∀ p, (handleConnection c (fun _ => true)
      (asc "a.txt<SEPARATOR>2" ++ 10 :: rest) [4096] (asc "/save") (fun _ => none)).files p
        = (if p = asc "/save/a.txt" then some [] else none) ∨
      (handleConnection c (fun _ => true)
      (asc "a.txt<SEPARATOR>2" ++ 10 :: rest) [4096] (asc "/save") (fun _ => none)).files p
        = some [] := by
    intro p
    unfold handleConnection
    rw [handleLoop]
    split
    · rcases handleLoop_no_data (fun _ => true) (asc "/save") _ _ hdata p with h | ⟨_, h⟩
      · exact Or.inl (by rw [h, hfile p])
      · exact Or.inr h
    · exact Or.inl (hfile p)
  constructor
  · rcases hall (asc "/save/a.txt") with h | h
    · rw [h]; simp
    · exact h
  · intro p
    rcases hall p with h | h
    · rw [h]
      split
      · exact Or.inr rfl
      · exact Or.inl rfl
    · exact Or.inr h

/-- Claim C9 at a failing input: the declared size is 2 and the connection holds 5
bytes, which one read returns together. The loop writes 2 bytes and leaves
with `written = 2`, but the read has taken all 5 bytes off the connection
and the keystream has moved on by 5: the 3 bytes after the payload are gone. -/
theorem payload_read_takes_following_bytes (r : StreamReader) (files : Files) (out : Option Bytes) :
    (payloadLoop 2 out [8192] [1, 2, 3, 4, 5] (some r) files 0).written = 2 ∧
    (payloadLoop 2 out [8192] [1, 2, 3, 4, 5] (some r) files 0).data = [] ∧
    ((payloadLoop 2 out [8192] [1, 2, 3, 4, 5] (some r) files 0).dec.map fun d => d.S.pos)
      = some (r.S.pos + 5) ∧
    (payloadLoop 2 out [8192] [1, 2, 3, 4, 5] (some r) files 0).files
      = fileWrite files out 0 (r.S.xorFrom r.S.pos [1, 2]) :=
  ⟨rfl, rfl, rfl, rfl⟩

/-- Claim C6 at a failing input: `/save/a.txt` exists and holds `hello world`; a
record for `a.txt` of size 2 is read completely. Afterwards the file holds
the 2 payload bytes followed by `llo world`: it was opened without
truncation. -/
theorem existing_file_keeps_tail (r : StreamReader) (x1 x2 : Nat) (opened : List Bytes) :
    (handleStep (fun _ => true) (asc "/save")
      { data := [x1, x2], sched := [2], buf := asc "a.txt<SEPARATOR>2" ++ [10], dec := some r,
        files := fun p => if p = asc "/save/a.txt" then some (asc "hello world") else none,
        opened := opened, status := Status.running }).files (asc "/save/a.txt")
      = some (r.S.xorFrom r.S.pos [x1, x2] ++ asc "llo world") := by
  rw [handleStep_line (fun _ => true) (asc "/save") _ (asc "a.txt<SEPARATOR>2" ++ [10]) []
    (asc "a.txt") 2
    (show cutLine 10 (asc "a.txt<SEPARATOR>2" ++ [10]) = some (asc "a.txt<SEPARATOR>2" ++ [10], [])
      by decide)
    (by decide)]
  rfl

/-- Claim C5 at a failing input: the line `a.txt<SEPARATOR>` has nothing after the
separator. The round does not pass it over: it opens `/save/a.txt`, which
did not exist and now exists empty; no payload byte is taken and the loop
goes on. -/
theorem bad_size_line_opens_file (data : Bytes) (sched : List Nat) (dec : Option StreamReader)
    (opened : List Bytes) :
    (handleStep (fun _ => true) (asc "/save")
      { data := data, sched := sched, buf := asc "a.txt<SEPARATOR>" ++ [10], dec := dec,
        files := fun _ => none, opened := opened, status := Status.running })
      = { data := data, sched := sched, buf := [], dec := dec,
          files := fun p => if p = asc "/save/a.txt" then some [] else none,
          opened := opened ++ [asc "/save/a.txt"], status := Status.running } := by
  rw [handleStep_line (fun _ => true) (asc "/save") _ (asc "a.txt<SEPARATOR>" ++ [10]) []
    (asc "a.txt") 0
    (show cutLine 10 (asc "a.txt<SEPARATOR>" ++ [10]) = some (asc "a.txt<SEPARATOR>" ++ [10], [])
      by decide)
    (by decide)]
  simp only [payloadLoop_done 0 _ _ _ _ _ 0 (le_refl _)]
  have hjoin : Join [asc "/save", asc "a.txt"] = asc "/save/a.txt" := by decide
  rw [hjoin]
  rfl

/-- Claim C7 at a failing input: a peer sends the metadata line `../x<SEPARATOR>0`
to a receiver whose save directory is `/save`. The round accepts the line
and opens `/x`, which did not exist and now exists; `/x` does not lie under
`/save`. With the line `../x<SEPARATOR>2` and two payload bytes on the
connection, the decrypted payload is written to `/x`. -/
theorem dotdot_name_leaves_saveDir (data : Bytes) (sched : List Nat) (dec : Option StreamReader)
    (opened : List Bytes) (r : StreamReader) (x1 x2 : Nat) :
    (handleStep (fun _ => true) (asc "/save")
      { data := data, sched := sched, buf := asc "../x<SEPARATOR>0" ++ [10], dec := dec,
        files := fun _ => none, opened := opened, status := Status.running })
      = { data := data, sched := sched, buf := [], dec := dec,
          files := fun p => if p = asc "/x" then some [] else none,
          opened := opened ++ [asc "/x"], status := Status.running } ∧
    liesUnder (asc "/save") (asc "/x") = false ∧
    (handleStep (fun _ => true) (asc "/save")
      { data := [x1, x2], sched := [2], buf := asc "../x<SEPARATOR>2" ++ [10], dec := some r,
        files := fun _ => none, opened := opened, status := Status.running }).files (asc "/x")
      = some (r.S.xorFrom r.S.pos [x1, x2]) := by
  have hjoin : Join [asc "/save", asc "../x"] = asc "/x" := by decide
  refine ⟨?_, by decide, ?_⟩
  · rw [handleStep_line (fun _ => true) (asc "/save") _ (asc "../x<SEPARATOR>0" ++ [10]) []
      (asc "../x") 0
      (show cutLine 10 (asc "../x<SEPARATOR>0" ++ [10])
        = some (asc "../x<SEPARATOR>0" ++ [10], []) by decide)
      (by decide)]
    simp only [payloadLoop_done 0 _ _ _ _ _ 0 (le_refl _)]
    rw [hjoin]
    rfl
  · rw [handleStep_line (fun _ => true) (asc "/save") _ (asc "../x<SEPARATOR>2" ++ [10]) []
      (asc "../x") 2
      (show cutLine 10 (asc "../x<SEPARATOR>2" ++ [10])
        = some (asc "../x<SEPARATOR>2" ++ [10], []) by decide)
      (by decide)]
    rfl

/-! ### Further properties of the receiver -/

theorem xorFrom_take (s : CTR) (p n : Nat) (b : Bytes) :
    s.xorFrom p (b.take n) = (s.xorFrom p b).take n := by
  induction b generalizing p n with
  | nil => simp [CTR.xorFrom]
  | cons x xs ih =>
    cases n with
    | zero => simp [CTR.xorFrom]
    | succ k => simp [CTR.xorFrom, ih]

theorem writeAt_nil (old : Bytes) (off : Nat) : writeAt old off [] = old := by
  simp [writeAt]

theorem writeAt_eq (old : Bytes) (off : Nat) (b : Bytes) (hb : b ≠ []) :
    writeAt old off b
      = old.take off ++ List.replicate (off - old.length) 0 ++ b ++ old.drop (off + b.length) := by
  simp [writeAt, hb]

theorem writeAt_writeAt (old : Bytes) (w : Nat) (b1 b2 : Bytes) :
    writeAt (writeAt old w b1) (w + b1.length) b2 = writeAt old w (b1 ++ b2) := by
  by_cases h1 : b1 = []
  · subst h1; simp [writeAt_nil]
  by_cases h2 : b2 = []
  · subst h2; simp [writeAt_nil]
  have h12 : b1 ++ b2 ≠ [] := by simp [h1]
  rw [writeAt_eq _ _ b2 h2, writeAt_eq old w b1 h1, writeAt_eq old w _ h12]
  have hP : (old.take w ++ List.replicate (w - old.length) 0).length = w := by
    simp only [List.length_append, List.length_take, List.length_replicate]
    omega
  generalize old.take w ++ List.replicate (w - old.length) 0 = P at hP
  have e1 : (P ++ b1 ++ old.drop (w + b1.length)).take (w + b1.length) = P ++ b1 := by
    rw [List.take_append_of_le_length (by simp [hP])]
    exact List.take_of_length_le (by simp [hP])
  have e2 : (P ++ b1 ++ old.drop (w + b1.length)).drop (w + b1.length + b2.length)
      = old.drop (w + (b1 ++ b2).length) := by
    have hl : (P ++ b1).length = w + b1.length := by simp [hP]
    rw [List.drop_append_eq_append_drop, List.drop_of_length_le (by omega), hl]
    simp only [List.nil_append, List.drop_drop, List.length_append]
    congr 1
    omega
  have e3 : w + b1.length - (P ++ b1 ++ old.drop (w + b1.length)).length = 0 := by
    simp only [List.length_append, hP]
    omega
  rw [e1, e2, e3]
  simp

theorem fileWrite_nil (files : Files) (out : Option Bytes) (off : Nat) :
    fileWrite files out off [] = files := by
  cases out with
  | none => rfl
  | some path =>
    funext p
    simp only [fileWrite, writeAt_nil]
    split
    · rename_i h; subst h; simp
    · rfl

theorem fileWrite_fileWrite (files : Files) (out : Option Bytes) (w : Nat) (b1 b2 : Bytes) :
    fileWrite (fileWrite files out w b1) out (w + b1.length) b2 = fileWrite files out w (b1 ++ b2) := by
  cases out with
  | none => rfl
  | some path =>
    funext p
    simp only [fileWrite]
    split
    · simp only [if_true, Option.map_map]
      congr 1
      funext old
      exact writeAt_writeAt old w b1 b2
    · rfl

theorem payloadLoop_exact (s : Nat) (out : Option Bytes) (sched : List Nat) :
    ∀ (data : Bytes) (r : StreamReader) (files : Files) (w : Nat),
      w ≤ s → s - w ≤ data.length → s - w ≤ sched.length →
      (payloadLoop (s : Int) out sched data (some r) files w).written = s ∧
      (payloadLoop (s : Int) out sched data (some r) files w).panicked = false ∧
      (payloadLoop (s : Int) out sched data (some r) files w).files
        = fileWrite files out w ((r.S.xorFrom r.S.pos data).take (s - w)) := by
  induction sched with
  | nil =>
    intro data r files w hw hd hs
    have : w = s := by simp at hs; omega
    subst this
    rw [payloadLoop_done _ _ _ _ _ _ _ (le_refl _)]
    simp [fileWrite_nil]
  | cons k rest ih =>
    intro data r files w hw hd hs
    by_cases hws : w = s
    · subst hws
      rw [payloadLoop_done _ _ _ _ _ _ _ (le_refl _)]
      simp [fileWrite_nil]
    · have hlt : (w : Int) < (s : Int) := by omega
      have hdata : data ≠ [] := by
        intro e
        rw [e] at hd
        simp at hd
        omega
      have hpos : 0 < data.length := List.length_pos.mpr hdata
      obtain ⟨hn1, hn2, hn3⟩ := readLen_le k BUFFER_SIZE data.length (by decide) hpos
      rw [payloadLoop.eq_def]
      simp only [hlt, if_true, hdata, if_false]
      generalize hn : readLen k BUFFER_SIZE data.length = n at hn1 hn2 hn3
      have hplain : (r.Read (data.take n)).2 = (r.S.xorFrom r.S.pos data).take n := by
        simp [StreamReader.Read, CTR.XORKeyStream, xorFrom_take]
      by_cases hover : (n : Int) > (s : Int) - (w : Int)
      · simp only [hover, if_true]
        have hm : ((s : Int) - (w : Int)).toNat = s - w := by omega
        rw [hm, payloadLoop_done _ _ _ _ _ _ _ (by simp; omega), hplain, List.take_take]
        refine ⟨by simp; omega, rfl, ?_⟩
        simp only
        rw [min_eq_left (by omega)]
      · simp only [hover, if_false]
        have hrem : n ≤ s - w := by omega
        obtain ⟨h1, h2, h3⟩ := ih (data.drop n) (r.Read (data.take n)).1
          (fileWrite files out w (((r.Read (data.take n)).2).take n)) (w + n)
          (by omega) (by simp; omega) (by simp at hs; omega)
        refine ⟨h1, h2, ?_⟩
        have hL : (data.take n).length = n := by rw [List.length_take]; omega
        have hlen : ((r.S.xorFrom r.S.pos data).take n).length = n := by
          rw [List.length_take, xorFrom_length]; omega
        have e1 : (r.Read (data.take n)).1.S.xorFrom (r.Read (data.take n)).1.S.pos (data.drop n)
            = r.S.xorFrom (r.S.pos + n) (data.drop n) := by
          simp only [StreamReader.Read, CTR.XORKeyStream, hL]
          apply xorFrom_congr <;> rfl
        have e2 : r.S.xorFrom r.S.pos data
            = (r.S.xorFrom r.S.pos data).take n ++ r.S.xorFrom (r.S.pos + n) (data.drop n) := by
          have h := xorFrom_append r.S r.S.pos (data.take n) (data.drop n)
          rw [List.take_append_drop, hL, xorFrom_take] at h
          exact h
        have e3 : (r.S.xorFrom r.S.pos data).drop n = r.S.xorFrom (r.S.pos + n) (data.drop n) := by
          have h := congrArg (List.drop n) e2
          rw [List.drop_left' hlen] at h
          exact h
        have hcomp := fileWrite_fileWrite files out w ((r.S.xorFrom r.S.pos data).take n)
          ((r.S.xorFrom (r.S.pos + n) (data.drop n)).take (s - (w + n)))
        rw [hlen] at hcomp
        rw [h3, hplain, List.take_take, min_self, e1, hcomp, ← e3,
          show s - w = n + (s - (w + n)) by omega, List.take_add]

/-- When the connection holds at least `s` bytes and no read fails (at least `s`
reads are to come), the payload loop for the declared size `s` ends without
panic with `written = s`, and the destination file holds the first `s`
decrypted bytes followed by what its old content had beyond `s` bytes; no
other file changes. -/
theorem payloadLoop_writes_declared_size (s : Nat) (path : Bytes) (sched : List Nat)
    (data : Bytes) (r : StreamReader) (files : Files) (old : Bytes)
    (hdata : s ≤ data.length) (hsched : s ≤ sched.length) (hold : files path = some old) :
    (payloadLoop (s : Int) (some path) sched data (some r) files 0).written = s ∧
    (payloadLoop (s : Int) (some path) sched data (some r) files 0).panicked = false ∧
    (payloadLoop (s : Int) (some path) sched data (some r) files 0).files path
      = some ((r.S.xorFrom r.S.pos data).take s ++ old.drop s) ∧
    ∀ p, p ≠ path →
      (payloadLoop (s : Int) (some path) sched data (some r) files 0).files p = files p := by
  obtain ⟨h1, h2, h3⟩ := payloadLoop_exact s (some path) sched data r files 0
    (Nat.zero_le _) (by simpa using hdata) (by simpa using hsched)
  refine ⟨h1, h2, ?_, ?_⟩
  · rw [h3]
    simp only [fileWrite, if_true, hold, Option.map_some', Nat.sub_zero]
    congr 1
    by_cases h0 : (r.S.xorFrom r.S.pos data).take s = []
    · have hl := congrArg List.length h0
      rw [List.length_take, xorFrom_length, List.length_nil] at hl
      have hs0 : s = 0 := by omega
      rw [h0, hs0]
      simp [writeAt]
    · have hl : ((r.S.xorFrom r.S.pos data).take s).length = s := by
        rw [List.length_take, xorFrom_length]; omega
      simp [writeAt, h0, hl]
  · intro p hp
    rw [h3]
    simp [fileWrite, hp]

theorem splitAux_no_infix (sep d acc : Bytes) (h : ¬ sep <:+: d) :
    splitAux sep d 0 acc = [acc.reverse ++ d] := by
  induction d generalizing acc with
  | nil => simp [splitAux]
  | cons c cs ih =>
    have hp : sep.isPrefixOf (c :: cs) = false :=
      isPrefixOf_false_of_not_prefix _ _ (fun hp => h hp.isInfix)
    have hcs : ¬ sep <:+: cs := fun hi => h (hi.trans (List.suffix_cons c cs).isInfix)
    simp only [splitAux, hp, Bool.false_eq_true, if_false]
    rw [ih _ hcs]
    simp

theorem trimLeftAux_suffix (n : Nat) : ∀ s : Bytes, trimLeftAux n s <:+ s := by
  induction n with
  | zero => intro s; exact List.suffix_refl s
  | succ k ih =>
    intro s
    rw [trimLeftAux]
    split
    · exact List.suffix_refl s
    · exact (ih _).trans (List.drop_suffix _ s)

theorem trimRightAux_suffix (n : Nat) : ∀ s : Bytes, trimRightAux n s <:+ s := by
  induction n with
  | zero => intro s; exact List.suffix_refl s
  | succ k ih =>
    intro s
    rw [trimRightAux]
    split
    · exact List.suffix_refl s
    · exact (ih _).trans (List.drop_suffix _ s)

theorem TrimSpace_within (s : Bytes) : TrimSpace s <:+: s := by
  have h1 : TrimLeftSpace s <:+ s := trimLeftAux_suffix _ s
  have h2 : TrimRightSpace (TrimLeftSpace s) <+: TrimLeftSpace s := by
    have h := List.reverse_prefix.mpr
      (trimRightAux_suffix (TrimLeftSpace s).length (TrimLeftSpace s).reverse)
    rwa [List.reverse_reverse] at h
  exact h2.isInfix.trans h1.isInfix

theorem parseMeta_no_separator (line : Bytes) (h : ¬ SEPARATOR <:+: line) :
    parseMeta line = none := by
  have h2 : ¬ SEPARATOR <:+: TrimSpace line := fun hi => h (hi.trans (TrimSpace_within line))
  rw [parseMeta, Split, splitAux_no_infix _ _ _ h2]

/-- A metadata line without the separator is passed over: the round changes
nothing but the position in the connection (no file is opened, no payload
byte is taken, nothing is decrypted) and the loop goes on. -/
theorem handleStep_no_separator (canOpen : Bytes → Bool) (saveDir : Bytes) (s : Recv)
    (herr : (ReadString 10 s.sched s.data s.buf []).err = none)
    (hsep : ¬ SEPARATOR <:+: (ReadString 10 s.sched s.data s.buf []).line) :
    handleStep canOpen saveDir s =
      { s with data := (ReadString 10 s.sched s.data s.buf []).data,
               sched := (ReadString 10 s.sched s.data s.buf []).sched,
               buf := (ReadString 10 s.sched s.data s.buf []).buf } := by
  unfold handleStep
  simp only [herr, parseMeta_no_separator _ hsep]

/-- Witness for `payloadLoop_writes_declared_size`: size 2, three bytes on the
connection, reads of one byte, an existing file of five bytes. -/
theorem payloadLoop_writes_declared_size_witness :
    2 ≤ ([7, 8, 9] : Bytes).length ∧ 2 ≤ ([1, 1] : List Nat).length ∧
    (payloadLoop ((2 : Nat) : Int) (some (asc "/save/a.txt")) [1, 1] [7, 8, 9]
      (some ⟨⟨toyCrypto.aesBlock (List.replicate 32 0), List.replicate 16 0, 0⟩⟩)
      (fun p => if p = asc "/save/a.txt" then some (asc "hello") else none) 0).files
        (asc "/save/a.txt")
      = some (((⟨toyCrypto.aesBlock (List.replicate 32 0), List.replicate 16 0, 0⟩ : CTR).xorFrom 0
          [7, 8, 9]).take 2 ++ (asc "hello").drop 2) :=
  ⟨by decide, by decide,
    (payloadLoop_writes_declared_size 2 (asc "/save/a.txt") [1, 1] [7, 8, 9]
      ⟨⟨toyCrypto.aesBlock (List.replicate 32 0), List.replicate 16 0, 0⟩⟩
      (fun p => if p = asc "/save/a.txt" then some (asc "hello") else none) (asc "hello")
      (by decide) (by decide) (by decide)).2.2.1⟩

/-- Witness for `handleStep_no_separator`: the buffered line `hello`. -/
theorem handleStep_no_separator_witness :
    (ReadString 10 [] [] (asc "hello" ++ [10]) []).err = none ∧
    ¬ SEPARATOR <:+: (ReadString 10 [] [] (asc "hello" ++ [10]) []).line ∧
    (handleStep (fun _ => true) (asc "/save")
      { data := [], sched := [], buf := asc "hello" ++ [10], dec := none,
        files := fun _ => none, opened := [], status := Status.running }).opened = [] :=
  ⟨by decide, by decide,
    congrArg Recv.opened (handleStep_no_separator (fun _ => true) (asc "/save")
      { data := [], sched := [], buf := asc "hello" ++ [10], dec := none,
        files := fun _ => none, opened := [], status := Status.running }
      (by decide) (by decide))⟩

end QShare
